import Mathlib

/-!
Verification development for the crabeye-mcp-bridge MCP aggregating proxy.

The definitions below are a shallow embedding of the TypeScript source:
JavaScript `Map`s and plain objects become association lists with JS
update semantics (an existing key keeps its position, a new key is
appended), JavaScript `Set`s become duplicate-free lists in insertion
order, and fallible code returns `Except`.  External library behaviour
(the MiniSearch text index, the RegExp engine, the MCP transport) enters
the model as explicit oracle parameters; everything else is translated
from the repository's own code.
-/

namespace Bridge

/-! ## Association-list maps with JavaScript `Map` semantics -/

/-- Lookup of the first binding for a key in an association list. -/
def alookup (k : String) : List (String × α) → Option α
  | [] => none
  | p :: ps => if p.1 = k then some p.2 else alookup k ps

/-- `Map.set` / object property assignment: every binding of an existing
key is replaced in place, a new key is appended at the end. -/
def jsSet (m : List (String × α)) (k : String) (v : α) : List (String × α) :=
  if (alookup k m).isSome then
    m.map (fun p => if p.1 = k then (k, v) else p)
  else
    m ++ [(k, v)]

/-- `Map.delete`: remove every binding of the key. -/
def jsDelete (m : List (String × α)) (k : String) : List (String × α) :=
  m.filter (fun p => p.1 ≠ k)

/-- `Set.add` on a string set kept as a duplicate-free list. -/
def jsAdd (s : List String) (x : String) : List String :=
  if x ∈ s then s else s ++ [x]

theorem alookup_append (m l : List (String × α)) (j : String) :
    alookup j (m ++ l) =
      match alookup j m with
      | some w => some w
      | none => alookup j l := by
  induction m with
  | nil => simp [alookup]
  | cons p ps ih =>
    by_cases hp : p.1 = j
    · simp [alookup, hp]
    · simp [alookup, hp, ih]

theorem alookup_mapUpdate (m : List (String × α)) (k j : String) (v : α) :
    alookup j (m.map (fun p => if p.1 = k then (k, v) else p)) =
      if j = k then (alookup k m).map (fun _ => v) else alookup j m := by
  induction m with
  | nil => by_cases hj : j = k <;> simp [alookup, hj]
  | cons p ps ih =>
    by_cases hp : p.1 = k
    · by_cases hj : j = k
      · subst hj; simp [alookup, hp, ih]
      · have hpj : ¬ p.1 = j := by rw [hp]; exact fun h => hj h.symm
        have hkj : ¬ k = j := fun h => hj h.symm
        simp [alookup, hp, hpj, hj, hkj, ih]
    · by_cases hj : j = k
      · subst hj
        have hpj : ¬ p.1 = j := hp
        simp [alookup, hp, hpj, ih]
      · by_cases hpj : p.1 = j
        · simp [alookup, hp, hpj, hj]
        · simp [alookup, hp, hpj, hj, ih]

theorem alookup_jsSet (m : List (String × α)) (k j : String) (v : α) :
    alookup j (jsSet m k v) = if j = k then some v else alookup j m := by
  unfold jsSet
  by_cases hk : (alookup k m).isSome
  · obtain ⟨w, hw⟩ := Option.isSome_iff_exists.mp hk
    rw [if_pos hk, alookup_mapUpdate, hw]
    rfl
  · have hnone : alookup k m = none := Option.not_isSome_iff_eq_none.mp hk
    rw [if_neg hk, alookup_append]
    by_cases hj : j = k
    · subst hj; simp [hnone, alookup]
    · cases hm : alookup j m with
      | none =>
        have hkj : ¬ k = j := fun h => hj h.symm
        simp [alookup, hj, hkj]
      | some w => simp [hj]

theorem alookup_jsDelete (m : List (String × α)) (k j : String) :
    alookup j (jsDelete m k) = if j = k then none else alookup j m := by
  induction m with
  | nil => simp [jsDelete, alookup]
  | cons p ps ih =>
    by_cases hp : p.1 = k
    · have hfilter : jsDelete (p :: ps) k = jsDelete ps k := by
        simp [jsDelete, hp]
      rw [hfilter, ih]
      by_cases hj : j = k
      · simp [hj]
      · have hpj : ¬ p.1 = j := by rw [hp]; exact fun h => hj h.symm
        simp [alookup, hj, hpj]
    · have hfilter : jsDelete (p :: ps) k = p :: jsDelete ps k := by
        simp [jsDelete, hp]
      rw [hfilter]
      by_cases hpj : p.1 = j
      · have hjk : ¬ j = k := by rw [← hpj]; exact hp
        simp [alookup, hpj, hjk]
      · simp [alookup, hpj, ih]

theorem mem_jsAdd (s : List String) (x y : String) :
    y ∈ jsAdd s x ↔ y ∈ s ∨ y = x := by
  unfold jsAdd
  by_cases h : x ∈ s
  · simp only [h, if_true]
    constructor
    · exact Or.inl
    · rintro (hy | rfl)
      · exact hy
      · exact h
  · simp [h]

/-! ## Tool namespacing (`src/server/tool-namespacing.ts`)

`namespaceTool` prefixes `source` + `"__"`; `parseNamespacedName` splits
on the first occurrence of the two-character separator `"__"`
(`String.indexOf` + `slice`), returning `undefined` when there is none. -/

/-- Split a character list at the first occurrence of the substring
`"__"`; mirrors `name.indexOf("__")` followed by the two `slice`s. -/
def splitOnSep : List Char → Option (List Char × List Char)
  | [] => none
  | c :: rest =>
    if c = '_' ∧ rest.head? = some '_' then some ([], rest.tail)
    else (splitOnSep rest).map (fun p => (c :: p.1, p.2))

/-- `namespaceTool`'s name computation: `` `${source}__${toolName}` ``. -/
def namespaceToolName (source toolName : String) : String :=
  source ++ "__" ++ toolName

/-- `parseNamespacedName` from `tool-namespacing.ts`. -/
def parseNamespacedName (name : String) : Option (String × String) :=
  match splitOnSep name.data with
  | none => none
  | some (s, t) => some (⟨s⟩, ⟨t⟩)

/-- `true` iff the character list contains two consecutive underscores. -/
def hasDoubleUnderscore : List Char → Bool
  | [] => false
  | c :: rest => (decide (c = '_') && decide (rest.head? = some '_')) || hasDoubleUnderscore rest

theorem splitOnSep_append (s t : List Char)
    (h : hasDoubleUnderscore (s ++ ['_']) = false) :
    splitOnSep (s ++ '_' :: '_' :: t) = some (s, t) := by
  induction s with
  | nil => simp [splitOnSep]
  | cons c s' ih =>
    rw [List.cons_append, hasDoubleUnderscore] at h
    rw [Bool.or_eq_false_iff, Bool.and_eq_false_iff] at h
    obtain ⟨h1, h2⟩ := h
    have hhead : (s' ++ '_' :: '_' :: t).head? = (s' ++ ['_']).head? := by
      cases s' <;> simp
    have hguard : ¬ (c = '_' ∧ (s' ++ '_' :: '_' :: t).head? = some '_') := by
      rintro ⟨rfl, hh⟩
      rw [hhead] at hh
      rcases h1 with h1 | h1 <;> simp_all
    rw [List.cons_append, splitOnSep, if_neg hguard, ih h2]
    rfl

theorem splitOnSep_eq_some (l a b : List Char) (h : splitOnSep l = some (a, b)) :
    l = a ++ '_' :: '_' :: b ∧ hasDoubleUnderscore (a ++ ['_']) = false := by
  induction l generalizing a b with
  | nil => rw [show splitOnSep [] = none from rfl] at h; cases h
  | cons c rest ih =>
    rw [splitOnSep] at h
    by_cases hguard : c = '_' ∧ rest.head? = some '_'
    · rw [if_pos hguard] at h
      obtain ⟨rfl, hh⟩ := hguard
      cases rest with
      | nil => simp at hh
      | cons d rest' =>
        simp only [List.head?] at hh
        injection hh with hd
        injection h with hpair
        injection hpair with ha hb
        subst ha
        subst hb
        subst hd
        exact ⟨rfl, by simp [hasDoubleUnderscore]⟩
    · rw [if_neg hguard] at h
      cases hsplit : splitOnSep rest with
      | none => rw [hsplit] at h; simp at h
      | some p =>
        obtain ⟨a', b'⟩ := p
        rw [hsplit] at h
        injection h with hpair
        injection hpair with ha hb
        obtain ⟨hrest, hfree⟩ := ih a' b' (by rw [hsplit])
        subst ha
        subst hb
        refine ⟨by rw [hrest, List.cons_append], ?_⟩
        rw [List.cons_append, hasDoubleUnderscore, hfree, Bool.or_false,
          Bool.and_eq_false_iff]
        by_cases hc : c = '_'
        · right
          have hhead : (a' ++ ['_']).head? = (a' ++ '_' :: '_' :: b').head? := by
            cases a' <;> simp
          simp only [decide_eq_false_iff_not]
          intro hcontra
          apply hguard
          refine ⟨hc, ?_⟩
          rw [hrest, ← hhead]
          exact hcontra
        · left; simp [hc]

/-- Data form of `String.append`: used to push string-level statements
down to the character-list model. -/
theorem namespaceToolName_data (source toolName : String) :
    (namespaceToolName source toolName).data =
      source.data ++ '_' :: '_' :: toolName.data := by
  show (source ++ "__" ++ toolName).data = _
  have h2 : ("__" : String).data = ['_', '_'] := by decide
  rw [String.data_append, String.data_append, h2, List.append_assoc]
  rfl

/--
C2 (amended): the namespacing round trip `parse (namespace s t) = (s, t)`
holds for every tool name `t` provided the *source* `s` contains no `__`
and does not end in `_` (captured by `hasDoubleUnderscore (s.data ++ ['_'])
= false`); and parsing always splits on the first `__` occurrence: whenever
`parseNamespacedName name = some (s, t)` the input is exactly
`s ++ "__" ++ t` with no earlier `__`, so the remainder `t` may itself
contain `__`.
-/
theorem namespacing_round_trip :
    (∀ source toolName : String,
      hasDoubleUnderscore (source.data ++ ['_']) = false →
      parseNamespacedName (namespaceToolName source toolName) =
        some (source, toolName)) ∧
    (∀ name s t : String,
      parseNamespacedName name = some (s, t) →
      name.data = s.data ++ '_' :: '_' :: t.data ∧
        hasDoubleUnderscore (s.data ++ ['_']) = false) := by
  constructor
  · intro source toolName h
    unfold parseNamespacedName
    rw [namespaceToolName_data, splitOnSep_append source.data toolName.data h]
  · intro name s t h
    unfold parseNamespacedName at h
    cases hsplit : splitOnSep name.data with
    | none => rw [hsplit] at h; cases h
    | some p =>
      obtain ⟨a, b⟩ := p
      rw [hsplit] at h
      injection h with hpair
      injection hpair with hs ht
      obtain ⟨hl, hfree⟩ := splitOnSep_eq_some name.data a b hsplit
      subst hs
      subst ht
      exact ⟨hl, hfree⟩

/-- Closed corollary of `namespacing_round_trip` at a concrete input: the
tool name may itself contain `__` and survives the round trip. -/
theorem namespacing_round_trip_witness :
    hasDoubleUnderscore (("linear" : String).data ++ ['_']) = false ∧
    parseNamespacedName (namespaceToolName "linear" "create__issue") =
      some ("linear", "create__issue") := by
  refine ⟨by decide, namespacing_round_trip.1 "linear" "create__issue" (by decide)⟩

/--
C2 counterexample: the claim conditions the round trip only on the tool
name `t`, but with `s = "a__b"` and `t = "c"` (a `t` with no `__`
anywhere, hence none at the split point) the parse splits inside the
source and the round trip fails.
-/
theorem namespacing_claim_counterexample :
    hasDoubleUnderscore ("c" : String).data = false ∧
    parseNamespacedName (namespaceToolName "a__b" "c") = some ("a", "b__c") ∧
    parseNamespacedName (namespaceToolName "a__b" "c") ≠ some ("a__b", "c") := by
  refine ⟨by decide, by decide, by decide⟩

/-! ## Tool Registry (`src/server/tool-registry.ts`)

`tools` is the main map `namespacedName → { source, tool }`,
`sourceIndex` the per-source name-set, `sourceCategories` the category
side-index.  Change listeners are side effects only and are not part of
the state these claims quantify over. -/

/-- An MCP tool.  The bridge treats the input schema as an opaque
payload, so it is carried here as an uninterpreted string. -/
structure Tool where
  name : String
  description : Option String := none
  inputSchema : String := ""
deriving DecidableEq

structure RegisteredTool where
  source : String
  tool : Tool
deriving DecidableEq

structure ToolRegistry where
  tools : List (String × RegisteredTool) := []
  sourceIndex : List (String × List String) := []
  sourceCategories : List (String × String) := []
deriving DecidableEq

def ToolRegistry.getTool (r : ToolRegistry) (name : String) :
    Option RegisteredTool :=
  alookup name r.tools

def ToolRegistry.listRegisteredTools (r : ToolRegistry) : List RegisteredTool :=
  r.tools.map (·.2)

def ToolRegistry.getCategoryForSource (r : ToolRegistry) (source : String) :
    Option String :=
  alookup source r.sourceCategories

def ToolRegistry.setCategoryForSource (r : ToolRegistry)
    (source category : String) : ToolRegistry :=
  { r with sourceCategories := jsSet r.sourceCategories source category }

/-- The first loop of `setToolsForSource`: delete every previously owned
name from the main map. -/
def deleteNames (m : List (String × RegisteredTool)) (ns : List String) :
    List (String × RegisteredTool) :=
  ns.foldl jsDelete m

/-- The second loop of `setToolsForSource`: install each incoming tool
into the main map and collect the new name-set. -/
def installTools (source : String) (ts : List Tool)
    (m : List (String × RegisteredTool)) (ns : List String) :
    List (String × RegisteredTool) × List String :=
  match ts with
  | [] => (m, ns)
  | t :: rest =>
      installTools source rest (jsSet m t.name ⟨source, t⟩) (jsAdd ns t.name)

def ToolRegistry.setToolsForSource (r : ToolRegistry) (source : String)
    (ts : List Tool) : ToolRegistry :=
  let tools0 :=
    match alookup source r.sourceIndex with
    | some oldNames => deleteNames r.tools oldNames
    | none => r.tools
  let installed := installTools source ts tools0 []
  { r with
    tools := installed.1
    sourceIndex := jsSet r.sourceIndex source installed.2 }

/-- One iteration of the deletion loop of `removeSource`: delete the
name only when its current owner is still the removed source. -/
def removeStep (source : String) (m : List (String × RegisteredTool))
    (n : String) : List (String × RegisteredTool) :=
  match alookup n m with
  | some cur => if cur.source = source then jsDelete m n else m
  | none => m

/-- The deletion loop of `removeSource`. -/
def removeOwned (source : String) (ns : List String)
    (m : List (String × RegisteredTool)) : List (String × RegisteredTool) :=
  ns.foldl (removeStep source) m

def ToolRegistry.removeSource (r : ToolRegistry) (source : String) :
    ToolRegistry :=
  match alookup source r.sourceIndex with
  | none => { r with sourceIndex := jsDelete r.sourceIndex source }
  | some names =>
    if names.isEmpty then
      { r with sourceIndex := jsDelete r.sourceIndex source }
    else
      { r with
        tools := removeOwned source names r.tools
        sourceIndex := jsDelete r.sourceIndex source
        sourceCategories := jsDelete r.sourceCategories source }

/-- A finite sequence of the two mutating registry calls of the claim. -/
inductive RegOp
  | setTools (source : String) (ts : List Tool)
  | removeSrc (source : String)

def applyOp (r : ToolRegistry) : RegOp → ToolRegistry
  | .setTools s ts => r.setToolsForSource s ts
  | .removeSrc s => r.removeSource s

def applyOps (ops : List RegOp) : ToolRegistry :=
  ops.foldl applyOp {}

/-- The registry-ownership property exactly as the claim states it: every
main-map entry's name is in its source's name-set, and in no *other*
source's name-set. -/
def ownershipOk (r : ToolRegistry) : Prop :=
  ∀ n rt, alookup n r.tools = some rt →
    ((∃ ns, alookup rt.source r.sourceIndex = some ns ∧ n ∈ ns) ∧
      (∀ s' ns', alookup s' r.sourceIndex = some ns' → s' ≠ rt.source →
        n ∉ ns'))

/-- Half (a) of the ownership property: every main-map entry's name is a
member of its own source's name-set. -/
def ownershipOwn (r : ToolRegistry) : Prop :=
  ∀ n rt, alookup n r.tools = some rt →
    ∃ ns, alookup rt.source r.sourceIndex = some ns ∧ n ∈ ns

/-! Characterisation lemmas for the registry loops. -/

theorem alookup_deleteNames (m : List (String × RegisteredTool))
    (ns : List String) (j : String) :
    alookup j (deleteNames m ns) = if j ∈ ns then none else alookup j m := by
  induction ns generalizing m with
  | nil => simp [deleteNames]
  | cons n rest ih =>
    show alookup j (deleteNames (jsDelete m n) rest) = _
    rw [ih]
    by_cases hj : j ∈ n :: rest
    · rw [if_pos hj]
      rcases List.mem_cons.mp hj with rfl | hjr
      · by_cases hr : j ∈ rest
        · simp [hr]
        · simp [hr, alookup_jsDelete]
      · simp [hjr]
    · have hjn : ¬ j = n := fun h => hj (h ▸ List.mem_cons_self n rest)
      have hjr : ¬ j ∈ rest := fun h => hj (List.mem_cons_of_mem n h)
      simp [hjn, hjr, alookup_jsDelete, hj]

/-- Last tool in the list with the given name (later writes win in the
installation loop). -/
def findLastTool (j : String) (ts : List Tool) : Option Tool :=
  ts.foldl (fun acc t => if t.name = j then some t else acc) none

theorem findLastTool_foldl (j : String) (ts : List Tool) (init : Option Tool) :
    ts.foldl (fun acc t => if t.name = j then some t else acc) init =
      match findLastTool j ts with
      | some t => some t
      | none => init := by
  induction ts generalizing init with
  | nil => simp [findLastTool]
  | cons t rest ih =>
    show rest.foldl _ (if t.name = j then some t else init) = _
    rw [ih]
    show _ = match rest.foldl _ (if t.name = j then some t else none) with
      | some t => some t
      | none => init
    rw [ih]
    cases findLastTool j rest <;> by_cases ht : t.name = j <;> simp [ht]

theorem findLastTool_mem (j : String) (ts : List Tool) (t : Tool)
    (h : findLastTool j ts = some t) : t ∈ ts ∧ t.name = j := by
  induction ts with
  | nil => cases h
  | cons u rest ih =>
    rw [findLastTool, List.foldl_cons, findLastTool_foldl] at h
    cases hrest : findLastTool j rest with
    | some t' =>
      rw [hrest] at h
      injection h with h
      subst h
      obtain ⟨hmem, hname⟩ := ih hrest
      exact ⟨List.mem_cons_of_mem u hmem, hname⟩
    | none =>
      rw [hrest] at h
      by_cases hu : u.name = j
      · rw [if_pos hu] at h
        injection h with h
        subst h
        exact ⟨List.mem_cons_self u rest, hu⟩
      · rw [if_neg hu] at h
        cases h

theorem findLastTool_exists (j : String) (ts : List Tool)
    (h : ∃ t ∈ ts, t.name = j) : (findLastTool j ts).isSome := by
  induction ts with
  | nil => simp at h
  | cons u rest ih =>
    rw [findLastTool, List.foldl_cons, findLastTool_foldl]
    cases hrest : findLastTool j rest with
    | some t' => simp
    | none =>
      obtain ⟨t, hmem, hname⟩ := h
      rcases List.mem_cons.mp hmem with rfl | hmem'
      · simp [hname]
      · have := ih ⟨t, hmem', hname⟩
        rw [hrest] at this
        cases this

theorem findLastTool_cons (j : String) (t : Tool) (rest : List Tool) :
    findLastTool j (t :: rest) =
      match findLastTool j rest with
      | some t' => some t'
      | none => if t.name = j then some t else none := by
  show rest.foldl _ (if t.name = j then some t else none) = _
  rw [findLastTool_foldl]

theorem installTools_lookup (source : String) (ts : List Tool)
    (m : List (String × RegisteredTool)) (ns : List String) (j : String) :
    alookup j (installTools source ts m ns).1 =
      match findLastTool j ts with
      | some t => some ⟨source, t⟩
      | none => alookup j m := by
  induction ts generalizing m ns with
  | nil => simp [installTools, findLastTool]
  | cons t rest ih =>
    show alookup j (installTools source rest (jsSet m t.name ⟨source, t⟩)
      (jsAdd ns t.name)).1 = _
    rw [ih, findLastTool_cons]
    cases hrest : findLastTool j rest with
    | some t' => simp
    | none =>
      by_cases ht : t.name = j
      · simp [ht, alookup_jsSet]
      · have hjt : ¬ j = t.name := fun h => ht h.symm
        simp [ht, hjt, alookup_jsSet]

theorem installTools_names (source : String) (ts : List Tool)
    (m : List (String × RegisteredTool)) (ns : List String) (j : String) :
    j ∈ (installTools source ts m ns).2 ↔ j ∈ ns ∨ ∃ t ∈ ts, t.name = j := by
  induction ts generalizing m ns with
  | nil => simp [installTools]
  | cons t rest ih =>
    show j ∈ (installTools source rest (jsSet m t.name ⟨source, t⟩)
      (jsAdd ns t.name)).2 ↔ _
    rw [ih, mem_jsAdd]
    constructor
    · rintro ((hns | rfl) | ⟨u, hu, hname⟩)
      · exact Or.inl hns
      · exact Or.inr ⟨t, List.mem_cons_self t rest, rfl⟩
      · exact Or.inr ⟨u, List.mem_cons_of_mem t hu, hname⟩
    · rintro (hns | ⟨u, hu, hname⟩)
      · exact Or.inl (Or.inl hns)
      · rcases List.mem_cons.mp hu with rfl | hu'
        · exact Or.inl (Or.inr hname.symm)
        · exact Or.inr ⟨u, hu', hname⟩

theorem alookup_removeStep (source : String)
    (m : List (String × RegisteredTool)) (n j : String) :
    alookup j (removeStep source m n) =
      if j = n then
        match alookup j m with
        | some cur => if cur.source = source then none else some cur
        | none => none
      else alookup j m := by
  unfold removeStep
  cases hm : alookup n m with
  | none =>
    by_cases hjn : j = n
    · subst hjn; simp [hm]
    · simp [hjn]
  | some cur =>
    by_cases hjn : j = n
    · subst hjn
      by_cases hsrc : cur.source = source
      · simp [hm, hsrc, alookup_jsDelete]
      · simp [hm, hsrc]
    · by_cases hsrc : cur.source = source
      · simp [hjn, hsrc, alookup_jsDelete]
      · simp [hjn, hsrc]

theorem removeOwned_lookup (source : String) (ns : List String)
    (m : List (String × RegisteredTool)) (j : String) :
    alookup j (removeOwned source ns m) =
      if j ∈ ns then
        match alookup j m with
        | some rt => if rt.source = source then none else some rt
        | none => none
      else alookup j m := by
  induction ns generalizing m with
  | nil => simp [removeOwned]
  | cons n rest ih =>
    show alookup j (removeOwned source rest (removeStep source m n)) = _
    rw [ih, alookup_removeStep]
    by_cases hjn : j = n
    · subst hjn
      rw [if_pos rfl]
      cases hm : alookup j m with
      | none => by_cases hjr : j ∈ rest <;> simp [hjr, List.mem_cons]
      | some cur =>
        by_cases hsrc : cur.source = source
        · by_cases hjr : j ∈ rest <;> simp [hjr, hsrc, List.mem_cons]
        · by_cases hjr : j ∈ rest <;> simp [hjr, hsrc, List.mem_cons]
    · rw [if_neg hjn]
      by_cases hjr : j ∈ rest <;> simp [hjn, hjr, List.mem_cons]

/-! Behavioural lemmas for `setToolsForSource` / `removeSource`. -/

theorem setToolsForSource_tools (r : ToolRegistry) (source : String)
    (ts : List Tool) (j : String) :
    alookup j (r.setToolsForSource source ts).tools =
      match findLastTool j ts with
      | some t => some ⟨source, t⟩
      | none =>
        match alookup source r.sourceIndex with
        | some oldNames => if j ∈ oldNames then none else alookup j r.tools
        | none => alookup j r.tools := by
  show alookup j (installTools source ts _ []).1 = _
  rw [installTools_lookup]
  cases findLastTool j ts with
  | some t => rfl
  | none =>
    cases alookup source r.sourceIndex with
    | some oldNames => exact alookup_deleteNames r.tools oldNames j
    | none => rfl

theorem setToolsForSource_index_other (r : ToolRegistry) (source : String)
    (ts : List Tool) (j : String) (hj : j ≠ source) :
    alookup j (r.setToolsForSource source ts).sourceIndex =
      alookup j r.sourceIndex := by
  show alookup j (jsSet r.sourceIndex source _) = _
  rw [alookup_jsSet, if_neg hj]

theorem setToolsForSource_index_self (r : ToolRegistry) (source : String)
    (ts : List Tool) :
    ∃ ns, alookup source (r.setToolsForSource source ts).sourceIndex = some ns ∧
      ∀ x, x ∈ ns ↔ ∃ t ∈ ts, t.name = x := by
  refine ⟨(installTools source ts
      (match alookup source r.sourceIndex with
        | some oldNames => deleteNames r.tools oldNames
        | none => r.tools) []).2, ?_, ?_⟩
  · show alookup source (jsSet r.sourceIndex source _) = _
    rw [alookup_jsSet, if_pos rfl]
  · intro x
    rw [installTools_names]
    simp

theorem ownershipOwn_setTools (r : ToolRegistry) (source : String)
    (ts : List Tool) (h : ownershipOwn r) :
    ownershipOwn (r.setToolsForSource source ts) := by
  intro n rt hlook
  rw [setToolsForSource_tools] at hlook
  cases hft : findLastTool n ts with
  | some t =>
    simp only [hft, Option.some.injEq] at hlook
    subst hlook
    obtain ⟨ns, hns, hmem⟩ := setToolsForSource_index_self r source ts
    obtain ⟨hmemt, hnamet⟩ := findLastTool_mem n ts t hft
    exact ⟨ns, hns, (hmem n).mpr ⟨t, hmemt, hnamet⟩⟩
  | none =>
    have hold : alookup n r.tools = some rt ∧ rt.source ≠ source := by
      cases hidx : alookup source r.sourceIndex with
      | some oldNames =>
        simp only [hft, hidx] at hlook
        by_cases hn : n ∈ oldNames
        · rw [if_pos hn] at hlook; cases hlook
        · rw [if_neg hn] at hlook
          refine ⟨hlook, ?_⟩
          intro hsrc
          obtain ⟨ns, hns, hnmem⟩ := h n rt hlook
          rw [hsrc, hidx] at hns
          injection hns with hns
          subst hns
          exact hn hnmem
      | none =>
        simp only [hft, hidx] at hlook
        refine ⟨hlook, ?_⟩
        intro hsrc
        obtain ⟨ns, hns, _⟩ := h n rt hlook
        rw [hsrc, hidx] at hns
        cases hns
    obtain ⟨hlook', hne⟩ := hold
    obtain ⟨ns, hns, hnmem⟩ := h n rt hlook'
    refine ⟨ns, ?_, hnmem⟩
    rw [setToolsForSource_index_other r source ts rt.source hne]
    exact hns

theorem removeSource_tools (r : ToolRegistry) (source j : String) :
    alookup j (r.removeSource source).tools =
      match alookup source r.sourceIndex with
      | none => alookup j r.tools
      | some names =>
        if names.isEmpty then alookup j r.tools
        else alookup j (removeOwned source names r.tools) := by
  unfold ToolRegistry.removeSource
  cases hidx : alookup source r.sourceIndex with
  | none => rfl
  | some names =>
    by_cases hemp : names.isEmpty
    · simp [hemp]
    · simp [hemp]

theorem removeSource_index (r : ToolRegistry) (source j : String) :
    alookup j (r.removeSource source).sourceIndex =
      if j = source then none else alookup j r.sourceIndex := by
  unfold ToolRegistry.removeSource
  cases hidx : alookup source r.sourceIndex with
  | none => exact alookup_jsDelete r.sourceIndex source j
  | some names =>
    by_cases hemp : names.isEmpty
    · simp only [hemp, if_true]
      exact alookup_jsDelete r.sourceIndex source j
    · simp only [hemp, if_false]
      exact alookup_jsDelete r.sourceIndex source j

theorem ownershipOwn_removeSource (r : ToolRegistry) (source : String)
    (h : ownershipOwn r) : ownershipOwn (r.removeSource source) := by
  intro n rt hlook
  rw [removeSource_tools] at hlook
  have hold : alookup n r.tools = some rt ∧ rt.source ≠ source := by
    cases hidx : alookup source r.sourceIndex with
    | none =>
      simp only [hidx] at hlook
      refine ⟨hlook, ?_⟩
      intro hsrc
      obtain ⟨ns, hns, _⟩ := h n rt hlook
      rw [hsrc, hidx] at hns
      cases hns
    | some names =>
      simp only [hidx] at hlook
      by_cases hemp : names.isEmpty
      · rw [if_pos hemp] at hlook
        refine ⟨hlook, ?_⟩
        intro hsrc
        obtain ⟨ns, hns, hnmem⟩ := h n rt hlook
        rw [hsrc, hidx] at hns
        injection hns with hns
        subst hns
        rw [List.isEmpty_iff] at hemp
        subst hemp
        cases hnmem
      · rw [if_neg hemp, removeOwned_lookup] at hlook
        by_cases hn : n ∈ names
        · rw [if_pos hn] at hlook
          cases hm : alookup n r.tools with
          | none =>
            simp only [hm] at hlook
            exact Option.noConfusion hlook
          | some rt0 =>
            simp only [hm] at hlook
            by_cases hs0 : rt0.source = source
            · rw [if_pos hs0] at hlook; cases hlook
            · rw [if_neg hs0] at hlook
              injection hlook with hlook
              subst hlook
              exact ⟨rfl, hs0⟩
        · rw [if_neg hn] at hlook
          refine ⟨hlook, ?_⟩
          intro hsrc
          obtain ⟨ns, hns, hnmem⟩ := h n rt hlook
          rw [hsrc, hidx] at hns
          injection hns with hns
          subst hns
          exact hn hnmem
  obtain ⟨hlook', hne⟩ := hold
  obtain ⟨ns, hns, hnmem⟩ := h n rt hlook'
  refine ⟨ns, ?_, hnmem⟩
  rw [removeSource_index, if_neg hne]
  exact hns

theorem ownershipOwn_foldl (ops : List RegOp) (r : ToolRegistry)
    (h : ownershipOwn r) : ownershipOwn (ops.foldl applyOp r) := by
  induction ops generalizing r with
  | nil => exact h
  | cons op rest ih =>
    apply ih
    cases op with
    | setTools s ts => exact ownershipOwn_setTools r s ts h
    | removeSrc s => exact ownershipOwn_removeSource r s h

/--
C1 (amended): after any finite sequence of `setToolsForSource` /
`removeSource` calls starting from the empty registry, every entry
`(name → {source, tool})` of the main map has its name in its own
source's name-set.  (The second half of the original claim — that the
name lies in *no other* source's name-set — fails; see the
counterexample.)
-/
theorem registry_ownership_amended (ops : List RegOp) :
    ownershipOwn (applyOps ops) := by
  apply ownershipOwn_foldl
  intro n rt h
  simp [alookup] at h

/-- Closed corollary of `registry_ownership_amended` at a concrete
one-operation sequence, discharging the entry hypothesis by evaluation. -/
theorem registry_ownership_amended_witness :
    ∃ ns,
      alookup "A"
        (applyOps [RegOp.setTools "A" [⟨"x", none, ""⟩]]).sourceIndex =
        some ns ∧ "x" ∈ ns :=
  registry_ownership_amended [RegOp.setTools "A" [⟨"x", none, ""⟩]]
    "x" ⟨"A", ⟨"x", none, ""⟩⟩ (by decide)

/--
C1 counterexample: after `setToolsForSource "A" [x]` then
`setToolsForSource "B" [x]`, the entry for `x` is owned by `B` but the
name `x` is still a member of `A`'s name-set, so the claimed ownership
property fails as stated.
-/
theorem registry_ownership_counterexample :
    ¬ ownershipOk (applyOps
      [RegOp.setTools "A" [⟨"x", none, ""⟩],
       RegOp.setTools "B" [⟨"x", none, ""⟩]]) := by
  intro h
  have h2 := (h "x" ⟨"B", ⟨"x", none, ""⟩⟩ (by decide)).2 "A" ["x"]
    (by decide) (by decide)
  exact h2 (by decide)

/-- Helper for C3: `removeSource` keeps every entry whose current owner
is a different source. -/
theorem removeSource_keeps_other (r1 : ToolRegistry) (A x : String)
    (rt : RegisteredTool) (h : alookup x r1.tools = some rt)
    (hsrc : rt.source ≠ A) : (r1.removeSource A).getTool x = some rt := by
  show alookup x (r1.removeSource A).tools = some rt
  rw [removeSource_tools]
  cases hidx : alookup A r1.sourceIndex with
  | none => exact h
  | some names =>
    by_cases hemp : names.isEmpty
    · simp only [hemp, if_true]; exact h
    · simp only [hemp, if_false]
      rw [removeOwned_lookup]
      by_cases hx : x ∈ names
      · rw [if_pos hx]
        simp [h, hsrc]
      · rw [if_neg hx]; exact h

/--
C3: if source `A` owns tool `x`, then `setToolsForSource B [x]` with
`B ≠ A` followed by `removeSource A` does not delete the entry for `x`:
`getTool x` still returns the entry owned by `B` — `removeSource`
deletes only entries whose current owner is still the removed source.
-/
theorem removeSource_never_steals (r : ToolRegistry) (A B x : String)
    (rt : RegisteredTool) (tl : Tool) (hBA : B ≠ A)
    (howner : alookup x r.tools = some rt) (hsrc : rt.source = A)
    (hname : tl.name = x) :
    ((r.setToolsForSource B [tl]).removeSource A).getTool x =
      some ⟨B, tl⟩ := by
  apply removeSource_keeps_other
  · rw [setToolsForSource_tools]
    have hft : findLastTool x [tl] = some tl := by
      unfold findLastTool
      simp [hname]
    rw [hft]
  · exact hBA

/-- Closed corollary of `removeSource_never_steals` at concrete data. -/
theorem removeSource_never_steals_witness :
    ((((({} : ToolRegistry).setToolsForSource "A"
        [⟨"x", none, ""⟩]).setToolsForSource "B"
        [⟨"x", none, ""⟩]).removeSource "A").getTool "x") =
      some ⟨"B", ⟨"x", none, ""⟩⟩ :=
  removeSource_never_steals
    (({} : ToolRegistry).setToolsForSource "A" [⟨"x", none, ""⟩])
    "A" "B" "x" ⟨"A", ⟨"x", none, ""⟩⟩ ⟨"x", none, ""⟩
    (by decide) (by decide) rfl rfl

/-! ## Policy engine (`src/policy/policy-engine.ts`)

`resolvePolicy` cascades per-tool map → per-server `toolPolicy` → global
policy.  `enforce` is embedded as a pure function of the elicitation
outcome; the returned `Bool` instruments whether `elicitFn` was invoked.
The prompt-path message elides the pretty-printed arguments (an opaque
payload the policy logic never inspects). -/

inductive ToolPolicy
  | always
  | prompt
  | never
deriving DecidableEq

/-- The per-server `_bridge` block as consumed by the policy engine
(`category` is used by other components; `auth` is irrelevant here). -/
structure ServerBridgeConfig where
  category : Option String := none
  toolPolicy : Option ToolPolicy := none
  tools : Option (List (String × ToolPolicy)) := none
deriving DecidableEq

structure PolicyEngine where
  globalPolicy : ToolPolicy
  serverConfigs : List (String × ServerBridgeConfig)
deriving DecidableEq

def PolicyEngine.resolvePolicy (pe : PolicyEngine) (source toolName : String) :
    ToolPolicy :=
  match alookup source pe.serverConfigs with
  | some serverConfig =>
    match (match serverConfig.tools with
           | some m => alookup toolName m
           | none => none) with
    | some perTool => perTool
    | none =>
      match serverConfig.toolPolicy with
      | some p => p
      | none => pe.globalPolicy
  | none => pe.globalPolicy

/-- The downstream's answer to an elicitation request; `action` is the
string field the engine compares against `"accept"`. -/
structure ElicitResult where
  action : String
deriving DecidableEq

inductive ErrorCode
  | invalidParams
  | invalidRequest
  | internalError
deriving DecidableEq

structure McpError where
  code : ErrorCode
  message : String
deriving DecidableEq

/-- `enforce`, with the elicitation call modelled by its outcome
(`.error` = the downstream client failed/does not support elicitation).
The second component records whether `elicitFn` was invoked. -/
def PolicyEngine.enforce (pe : PolicyEngine) (source toolName : String)
    (elicitFn : Except Unit ElicitResult) : Except McpError Unit × Bool :=
  match pe.resolvePolicy source toolName with
  | .always => (.ok (), false)
  | .never =>
    (.error ⟨.invalidRequest,
      "Tool " ++ source ++ "__" ++ toolName ++ " is disabled by policy"⟩,
     false)
  | .prompt =>
    match elicitFn with
    | .ok result =>
      if result.action ≠ "accept" then
        (.error ⟨.invalidRequest,
          "Tool " ++ source ++ "__" ++ toolName ++ " was declined by user"⟩,
         true)
      else (.ok (), true)
    | .error _ =>
      (.error ⟨.invalidRequest,
        "Tool " ++ source ++ "__" ++ toolName ++
          " requires confirmation but the client does not support elicitation"⟩,
       true)

/--
C9: `resolvePolicy` returns the per-tool map entry for
`(source, toolName)` when present, else the server's `toolPolicy` when
present, else the global policy; and whenever the resolved policy is
`never`, `enforce` fails with an `InvalidRequest`-class error naming the
(namespaced) tool, without ever invoking `elicitFn`.
-/
theorem policy_cascade_and_never (pe : PolicyEngine)
    (source toolName : String) :
    (∀ sc, alookup source pe.serverConfigs = some sc →
      (∀ m p, sc.tools = some m → alookup toolName m = some p →
        pe.resolvePolicy source toolName = p) ∧
      ((match sc.tools with
        | some m => alookup toolName m
        | none => none) = none →
        (∀ p, sc.toolPolicy = some p →
          pe.resolvePolicy source toolName = p) ∧
        (sc.toolPolicy = none →
          pe.resolvePolicy source toolName = pe.globalPolicy))) ∧
    (alookup source pe.serverConfigs = none →
      pe.resolvePolicy source toolName = pe.globalPolicy) ∧
    (pe.resolvePolicy source toolName = .never →
      ∀ elicitFn, pe.enforce source toolName elicitFn =
        (.error ⟨.invalidRequest,
          "Tool " ++ source ++ "__" ++ toolName ++ " is disabled by policy"⟩,
         false)) := by
  refine ⟨?_, ?_, ?_⟩
  · intro sc hsc
    constructor
    · intro m p hm hp
      unfold PolicyEngine.resolvePolicy
      simp only [hsc, hm, hp]
    · intro hnone
      constructor
      · intro p hp
        unfold PolicyEngine.resolvePolicy
        simp only [hsc, hnone, hp]
      · intro hp
        unfold PolicyEngine.resolvePolicy
        simp only [hsc, hnone, hp]
  · intro hnone
    unfold PolicyEngine.resolvePolicy
    simp only [hnone]
  · intro hnever elicitFn
    unfold PolicyEngine.enforce
    simp only [hnever]

/-- Closed corollary of `policy_cascade_and_never` at the spec's S6-style
configuration: the per-tool `never` entry wins and `enforce` rejects
without consulting the (accepting) elicitation outcome. -/
theorem policy_cascade_and_never_witness :
    (PolicyEngine.mk .always
        [("linear", ⟨none, some .prompt, some [("delete_issue", .never)]⟩)]
      |>.resolvePolicy "linear" "delete_issue") = .never ∧
    (PolicyEngine.mk .always
        [("linear", ⟨none, some .prompt, some [("delete_issue", .never)]⟩)]
      |>.enforce "linear" "delete_issue" (.ok ⟨"accept"⟩)) =
      (.error ⟨.invalidRequest,
        "Tool linear__delete_issue is disabled by policy"⟩, false) := by
  have T := policy_cascade_and_never
    (PolicyEngine.mk .always
      [("linear", ⟨none, some .prompt, some [("delete_issue", .never)]⟩)])
    "linear" "delete_issue"
  have h1 : (PolicyEngine.mk .always
      [("linear", ⟨none, some .prompt, some [("delete_issue", .never)]⟩)]
    |>.resolvePolicy "linear" "delete_issue") = .never :=
    (T.1 ⟨none, some .prompt, some [("delete_issue", .never)]⟩ (by decide)).1
      [("delete_issue", .never)] .never rfl (by decide)
  refine ⟨h1, ?_⟩
  have h2 := T.2.2 h1 (.ok ⟨"accept"⟩)
  simpa using h2

/-! ## Bridge server routing (`src/server/bridge-server.ts`,
`routeToUpstream`)

The upstream client is abstracted to its connection status and a
`callTool` oracle (result payloads and thrown error messages are opaque
strings).  `getClient` is optional, mirroring the optional
`getUpstreamClient` resolver of `BridgeServerOptions`. -/

inductive ConnectionStatus
  | disconnected
  | connecting
  | connected
  | error
deriving DecidableEq

/-- `status` rendering used in the not-connected diagnostic. -/
def statusText : ConnectionStatus → String
  | .disconnected => "disconnected"
  | .connecting => "connecting"
  | .connected => "connected"
  | .error => "error"

/-- A JS arguments object, modelled as key/value pairs of opaque strings. -/
abbrev Args := List (String × String)

structure UpstreamClientModel where
  status : ConnectionStatus
  /-- Oracle for the upstream `callTool` verb: `.error` models a thrown
  upstream error with the given message. -/
  call : String → Option Args → Except String String

/-- The `if (this.policyEngine) { await enforce(...) }` prelude. -/
def enforceStep (pe : Option PolicyEngine) (source toolName : String)
    (elicitFn : Except Unit ElicitResult) : Except McpError Unit :=
  match pe with
  | some p => (p.enforce source toolName elicitFn).1
  | none => .ok ()

def routeToUpstream (pe : Option PolicyEngine)
    (elicitFn : Except Unit ElicitResult)
    (getClient : Option (String → Option UpstreamClientModel))
    (name : String) (args : Option Args) : Except McpError String :=
  match parseNamespacedName name with
  | none =>
    .error ⟨.invalidParams, "Invalid tool name (missing namespace): " ++ name⟩
  | some (source, toolName) =>
    match enforceStep pe source toolName elicitFn with
    | .error e => .error e
    | .ok _ =>
      match getClient with
      | none =>
        .error ⟨.internalError, "No upstream client resolver configured"⟩
      | some gc =>
        match gc source with
        | none =>
          .error ⟨.internalError, "Upstream server not found: " ++ source⟩
        | some client =>
          if client.status ≠ .connected then
            .error ⟨.internalError,
              "Upstream server \"" ++ source ++ "\" is not connected (status: "
                ++ statusText client.status ++ ")"⟩
          else
            match client.call toolName args with
            | .ok r => .ok r
            | .error msg =>
              .error ⟨.internalError,
                "Upstream server \"" ++ source ++ "\" error: " ++ msg⟩

/--
C5: routing a downstream call — a name without `__` fails with
`InvalidParams`; with policy enforcement passing, an unknown upstream or
a non-`connected` upstream fails with `InternalError`; otherwise
`callTool` is delegated with the original (non-namespaced) tool name and
the unchanged arguments and its result returned; an error thrown by the
upstream call is rethrown as an `InternalError` that names the source
and preserves the upstream message.
-/
theorem route_to_upstream_behaviour (pe : Option PolicyEngine)
    (elicitFn : Except Unit ElicitResult)
    (gc : String → Option UpstreamClientModel)
    (name : String) (args : Option Args) :
    (parseNamespacedName name = none →
      routeToUpstream pe elicitFn (some gc) name args =
        .error ⟨.invalidParams,
          "Invalid tool name (missing namespace): " ++ name⟩) ∧
    (∀ source toolName,
      parseNamespacedName name = some (source, toolName) →
      enforceStep pe source toolName elicitFn = .ok () →
      (gc source = none →
        routeToUpstream pe elicitFn (some gc) name args =
          .error ⟨.internalError, "Upstream server not found: " ++ source⟩) ∧
      (∀ client, gc source = some client → client.status ≠ .connected →
        routeToUpstream pe elicitFn (some gc) name args =
          .error ⟨.internalError,
            "Upstream server \"" ++ source ++ "\" is not connected (status: "
              ++ statusText client.status ++ ")"⟩) ∧
      (∀ client r, gc source = some client → client.status = .connected →
        client.call toolName args = .ok r →
        routeToUpstream pe elicitFn (some gc) name args = .ok r) ∧
      (∀ client msg, gc source = some client → client.status = .connected →
        client.call toolName args = .error msg →
        routeToUpstream pe elicitFn (some gc) name args =
          .error ⟨.internalError,
            "Upstream server \"" ++ source ++ "\" error: " ++ msg⟩)) := by
  constructor
  · intro hparse
    unfold routeToUpstream
    simp only [hparse]
  · intro source toolName hparse henf
    refine ⟨?_, ?_, ?_, ?_⟩
    · intro hclient
      unfold routeToUpstream
      simp only [hparse, henf, hclient]
    · intro client hclient hstatus
      unfold routeToUpstream
      simp only [hparse, henf, hclient, if_pos hstatus]
    · intro client r hclient hstatus hcall
      unfold routeToUpstream
      have : ¬ client.status ≠ ConnectionStatus.connected := by
        simp [hstatus]
      simp only [hparse, henf, hclient, if_neg this, hcall]
    · intro client msg hclient hstatus hcall
      unfold routeToUpstream
      have : ¬ client.status ≠ ConnectionStatus.connected := by
        simp [hstatus]
      simp only [hparse, henf, hclient, if_neg this, hcall]

/-- Closed corollary of `route_to_upstream_behaviour`: the S1-style
delegation at a concrete connected client, plus upstream-error wrapping
at a failing client. -/
theorem route_to_upstream_behaviour_witness :
    routeToUpstream none (.error ())
      (some (fun s => if s = "linear"
        then some ⟨.connected,
          fun t _ => if t = "create_issue" then .ok "ok-result" else .error "no such tool"⟩
        else none))
      "linear__create_issue" (some [("title", "X")]) = .ok "ok-result" ∧
    routeToUpstream none (.error ())
      (some (fun s => if s = "linear"
        then some ⟨.connected,
          fun t _ => if t = "create_issue" then .ok "ok-result" else .error "no such tool"⟩
        else none))
      "linear__boom" (some [("title", "X")]) =
      .error ⟨.internalError,
        "Upstream server \"linear\" error: no such tool"⟩ := by
  constructor
  · exact (((route_to_upstream_behaviour none (.error ())
      (fun s => if s = "linear"
        then some ⟨.connected,
          fun t _ => if t = "create_issue" then .ok "ok-result" else .error "no such tool"⟩
        else none)
      "linear__create_issue" (some [("title", "X")])).2 "linear" "create_issue"
        (by decide) rfl).2.2.1
      ⟨.connected, fun t _ => if t = "create_issue" then .ok "ok-result" else .error "no such tool"⟩
      "ok-result" (by simp) rfl (by simp))
  · exact (((route_to_upstream_behaviour none (.error ())
      (fun s => if s = "linear"
        then some ⟨.connected,
          fun t _ => if t = "create_issue" then .ok "ok-result" else .error "no such tool"⟩
        else none)
      "linear__boom" (some [("title", "X")])).2 "linear" "boom"
        (by decide) rfl).2.2.2
      ⟨.connected, fun t _ => if t = "create_issue" then .ok "ok-result" else .error "no such tool"⟩
      "no such tool" (by simp) rfl (by simp))

/-! ## Upstream resolution (`src/config/schema.ts`, `resolveUpstreams`)

The validated configuration shape is the one produced by
`BridgeConfigSchema`: keys `mcpServers` (defaulting to `{}`),
`mcpUpstreams` and `servers`.  `resolveUpstreams` merges them with later
assignments overwriting (`Object.assign`), so the earlier-wins priority
is `mcpUpstreams` > `servers` > `mcpServers`, and filters stdio entries
of `mcpServers` whose command or args mention the bridge itself. -/

inductive HttpKind
  | streamableHttp
  | sse
deriving DecidableEq

inductive ServerConfig
  | stdio (command : String) (args : Option (List String))
      (env : Option (List (String × String)))
  | http (kind : HttpKind) (url : String)
      (headers : Option (List (String × String)))
deriving DecidableEq

/-- `"command" in config` on a validated server config. -/
def isStdioServer : ServerConfig → Bool
  | .stdio .. => true
  | .http .. => false

/-- Substring occurrence check on character lists. -/
def listIncludes (needle : List Char) : List Char → Bool
  | [] => needle.isEmpty
  | c :: rest => needle.isPrefixOf (c :: rest) || listIncludes needle rest

/-- JS `String.prototype.includes`: substring containment. -/
def strIncludes (hay needle : String) : Bool :=
  listIncludes needle.data hay.data

/-- The self-exclusion test applied to `mcpServers` entries: a stdio
entry whose command or any args string contains the bridge's name. -/
def isSelfReference : ServerConfig → Bool
  | .stdio command args _ =>
    (command :: args.getD []).any (fun t => strIncludes t "crabeye-mcp-bridge")
  | .http .. => false

structure BridgeConfig where
  mcpServers : List (String × ServerConfig) := []
  mcpUpstreams : Option (List (String × ServerConfig)) := none
  servers : Option (List (String × ServerConfig)) := none
deriving DecidableEq

/-- `Object.assign(result, entries)`. -/
def assignAll (acc : List (String × ServerConfig))
    (entries : List (String × ServerConfig)) :
    List (String × ServerConfig) :=
  entries.foldl (fun a p => jsSet a p.1 p.2) acc

def resolveUpstreams (c : BridgeConfig) : List (String × ServerConfig) :=
  let r0 := c.mcpServers.foldl
    (fun acc p => if isSelfReference p.2 then acc else jsSet acc p.1 p.2) []
  let r1 := match c.servers with
    | some entries => assignAll r0 entries
    | none => r0
  match c.mcpUpstreams with
  | some entries => assignAll r1 entries
  | none => r1

theorem alookup_eq_none_of_not_mem (l : List (String × α)) (j : String)
    (h : j ∉ l.map Prod.fst) : alookup j l = none := by
  induction l with
  | nil => rfl
  | cons p ps ih =>
    simp only [List.map_cons, List.mem_cons] at h
    push_neg at h
    rw [alookup, if_neg fun hp => h.1 hp.symm]
    exact ih h.2

theorem assignAll_lookup (entries acc : List (String × ServerConfig))
    (j : String) (h : (entries.map Prod.fst).Nodup) :
    alookup j (assignAll acc entries) =
      match alookup j entries with
      | some v => some v
      | none => alookup j acc := by
  induction entries generalizing acc with
  | nil => rfl
  | cons p rest ih =>
    rw [List.map_cons, List.nodup_cons] at h
    show alookup j (assignAll (jsSet acc p.1 p.2) rest) = _
    rw [ih _ h.2]
    by_cases hpj : p.1 = j
    · have hnone : alookup j rest = none := by
        apply alookup_eq_none_of_not_mem
        rw [← hpj]
        exact h.1
      simp [alookup, hpj, hnone, alookup_jsSet]
    · have hjp : ¬ j = p.1 := fun hh => hpj hh.symm
      simp only [alookup, hpj, if_false, alookup_jsSet, hjp]

/-- The filtered pass over `mcpServers`, generalised over the
accumulator. -/
def mcpServersPass (entries acc : List (String × ServerConfig)) :
    List (String × ServerConfig) :=
  entries.foldl
    (fun acc p => if isSelfReference p.2 then acc else jsSet acc p.1 p.2) acc

theorem mcpServersPass_lookup (entries acc : List (String × ServerConfig))
    (j : String) (h : (entries.map Prod.fst).Nodup) :
    alookup j (mcpServersPass entries acc) =
      match alookup j entries with
      | some v => if isSelfReference v then alookup j acc else some v
      | none => alookup j acc := by
  induction entries generalizing acc with
  | nil => rfl
  | cons p rest ih =>
    rw [List.map_cons, List.nodup_cons] at h
    show alookup j (mcpServersPass rest
      (if isSelfReference p.2 then acc else jsSet acc p.1 p.2)) = _
    rw [ih _ h.2]
    by_cases hpj : p.1 = j
    · have hnone : alookup j rest = none := by
        apply alookup_eq_none_of_not_mem
        rw [← hpj]
        exact h.1
      by_cases hself : isSelfReference p.2
      · simp [alookup, hpj, hnone, hself]
      · simp [alookup, hpj, hnone, hself, alookup_jsSet]
    · have hjp : ¬ j = p.1 := fun hh => hpj hh.symm
      by_cases hself : isSelfReference p.2
      · simp [alookup, hpj, hself]
      · simp [alookup, hpj, hjp, hself, alookup_jsSet]

/--
C4 (amended): for every validated configuration (whose key maps have
duplicate-free names, as JS objects do), `resolveUpstreams` resolves a
name from the *three* top-level keys with earlier-wins priority
`mcpUpstreams` > `servers` > `mcpServers`, excluding entries read from
`mcpServers` whose command or any args string contains
`crabeye-mcp-bridge`.  (`context_servers` is not among the validated
keys and is never read; see the counterexample.)
-/
theorem resolveUpstreams_resolution (c : BridgeConfig) (j : String)
    (h1 : (c.mcpServers.map Prod.fst).Nodup)
    (h2 : ((c.servers.getD []).map Prod.fst).Nodup)
    (h3 : ((c.mcpUpstreams.getD []).map Prod.fst).Nodup) :
    alookup j (resolveUpstreams c) =
      match alookup j (c.mcpUpstreams.getD []) with
      | some v => some v
      | none =>
        match alookup j (c.servers.getD []) with
        | some v => some v
        | none =>
          match alookup j c.mcpServers with
          | some v => if isSelfReference v then none else some v
          | none => none := by
  have hr0 : alookup j (mcpServersPass c.mcpServers []) =
      match alookup j c.mcpServers with
      | some v => if isSelfReference v then none else some v
      | none => none := by
    rw [mcpServersPass_lookup _ _ _ h1]
    cases alookup j c.mcpServers with
    | none => rfl
    | some v =>
      by_cases hself : isSelfReference v
      · simp [hself, alookup]
      · simp [hself]
  have htop : resolveUpstreams c =
      assignAll (assignAll (mcpServersPass c.mcpServers [])
        (c.servers.getD [])) (c.mcpUpstreams.getD []) := by
    unfold resolveUpstreams
    cases c.servers <;> cases c.mcpUpstreams <;> rfl
  rw [htop, assignAll_lookup _ _ _ h3, assignAll_lookup _ _ _ h2, hr0]

/-- Closed corollary of `resolveUpstreams_resolution`: `mcpUpstreams`
overrides `mcpServers`, and a self-referential `mcpServers` entry is
dropped. -/
theorem resolveUpstreams_resolution_witness :
    alookup "b" (resolveUpstreams
      ⟨[("a", .stdio "npx crabeye-mcp-bridge" none none),
        ("b", .stdio "node" (some ["server.js"]) none)],
       some [("b", .http .streamableHttp "http://u1" none)], none⟩) =
      some (.http .streamableHttp "http://u1" none) ∧
    alookup "a" (resolveUpstreams
      ⟨[("a", .stdio "npx crabeye-mcp-bridge" none none),
        ("b", .stdio "node" (some ["server.js"]) none)],
       some [("b", .http .streamableHttp "http://u1" none)], none⟩) = none := by
  constructor
  · have h := resolveUpstreams_resolution
      ⟨[("a", .stdio "npx crabeye-mcp-bridge" none none),
        ("b", .stdio "node" (some ["server.js"]) none)],
       some [("b", .http .streamableHttp "http://u1" none)], none⟩ "b"
      (by decide) (by decide) (by decide)
    rw [h]
    decide
  · have h := resolveUpstreams_resolution
      ⟨[("a", .stdio "npx crabeye-mcp-bridge" none none),
        ("b", .stdio "node" (some ["server.js"]) none)],
       some [("b", .http .streamableHttp "http://u1" none)], none⟩ "a"
      (by decide) (by decide) (by decide)
    rw [h]
    decide

/-- The raw (pre-validation) top-level key set the claim speaks about,
including `context_servers`. -/
structure RawBridgeConfig where
  mcpUpstreams : Option (List (String × ServerConfig)) := none
  servers : Option (List (String × ServerConfig)) := none
  contextServers : Option (List (String × ServerConfig)) := none
  mcpServers : Option (List (String × ServerConfig)) := none
deriving DecidableEq

/-- Validation by `BridgeConfigSchema` (zod): unknown keys — in
particular `context_servers` — are stripped, and `mcpServers` defaults
to `{}`. -/
def parseBridgeConfig (c : RawBridgeConfig) : BridgeConfig :=
  { mcpServers := c.mcpServers.getD []
    mcpUpstreams := c.mcpUpstreams
    servers := c.servers }

/-- Modelled from the spec (for comparison only): the four-key union the
claim describes — `mcpUpstreams` > `servers` > `context_servers` >
`mcpServers`, earlier wins, with self-exclusion applied to `mcpServers`
and `context_servers`. -/
def resolveUpstreamsFourKeySpec (c : RawBridgeConfig) :
    List (String × ServerConfig) :=
  let r0 := mcpServersPass (c.mcpServers.getD []) []
  let r1 := mcpServersPass (c.contextServers.getD []) r0
  let r2 := assignAll r1 (c.servers.getD [])
  assignAll r2 (c.mcpUpstreams.getD [])

/--
C4 counterexample: a configuration whose only upstream entry sits under
`context_servers` resolves to that entry under the claim's four-key
union, but the code's validation strips `context_servers`, so
`resolveUpstreams` returns no upstream at all.
-/
theorem resolveUpstreams_claim_counterexample :
    resolveUpstreamsFourKeySpec
        ⟨none, none, some [("a", .stdio "node" none none)], none⟩ =
      [("a", .stdio "node" none none)] ∧
    resolveUpstreams (parseBridgeConfig
        ⟨none, none, some [("a", .stdio "node" none none)], none⟩) = [] := by
  constructor
  · decide
  · decide

/-! ## Health loop (`src/upstream/upstream-manager.ts`, `_runHealthCheck`)

The per-client ping settlement handlers, embedded as pure state
transformers on the client's `HealthTracking` record.  The rejection
handler takes the outcome of the `client.reconnect()` promise as an
explicit parameter: the code attaches `.catch(log)` to it, so the
outcome is logged and can never influence the tracking state nor
propagate. -/

inductive HealthState
  | unknown
  | healthy
  | unhealthy
deriving DecidableEq

structure HealthTracking where
  consecutiveFailures : Nat := 0
  health : HealthState := .unknown
  lastPingAt : Option Nat := none
deriving DecidableEq

def unhealthyThreshold : Nat := 3

/-- The ping fulfilment handler (`now` is `Date.now()`). -/
def pingSuccess (t : HealthTracking) (now : Nat) : HealthTracking :=
  { t with consecutiveFailures := 0, lastPingAt := some now,
           health := .healthy }

/-- The ping rejection handler: increment the failure count and mark
unhealthy; on reaching the threshold reset the count, set health to
`unknown` and invoke `client.reconnect()` (the returned `Bool`).  The
transient `unhealthy` assignment is overwritten by `unknown` in the
threshold branch, as in the source. -/
def pingFailure (t : HealthTracking)
    (reconnectOutcome : Except String Unit) : HealthTracking × Bool :=
  if t.consecutiveFailures + 1 ≥ unhealthyThreshold then
    ({ t with consecutiveFailures := 0, health := .unknown }, true)
  else
    ({ t with consecutiveFailures := t.consecutiveFailures + 1,
              health := .unhealthy }, false)

/-- A run of consecutive failed ticks; the second component counts the
`reconnect()` invocations. -/
def runFailures (t : HealthTracking) :
    List (Except String Unit) → HealthTracking × Nat
  | [] => (t, 0)
  | o :: rest =>
    let r := pingFailure t o
    let tail := runFailures r.1 rest
    (tail.1, (if r.2 then 1 else 0) + tail.2)

theorem runFailures_arith (outcomes : List (Except String Unit))
    (t : HealthTracking) (h : t.consecutiveFailures < unhealthyThreshold) :
    (runFailures t outcomes).2 =
      (t.consecutiveFailures + outcomes.length) / 3 ∧
    (runFailures t outcomes).1.consecutiveFailures =
      (t.consecutiveFailures + outcomes.length) % 3 := by
  induction outcomes generalizing t with
  | nil =>
    unfold unhealthyThreshold at h
    refine ⟨?_, ?_⟩
    · show 0 = _
      simp only [List.length_nil]
      omega
    · show t.consecutiveFailures = _
      simp only [List.length_nil]
      omega
  | cons o rest ih =>
    unfold unhealthyThreshold at h
    by_cases hc : t.consecutiveFailures + 1 ≥ unhealthyThreshold
    · have hstep : pingFailure t o =
          ({ t with consecutiveFailures := 0, health := .unknown }, true) := by
        unfold pingFailure
        rw [if_pos hc]
      obtain ⟨hcount, hmod⟩ := ih
        { t with consecutiveFailures := 0, health := .unknown }
        (by show (0 : Nat) < unhealthyThreshold; decide)
      have hproj : ({ t with consecutiveFailures := 0, health := HealthState.unknown } : HealthTracking).consecutiveFailures = 0 := rfl
      rw [hproj] at hcount hmod
      unfold unhealthyThreshold at hc
      refine ⟨?_, ?_⟩
      · simp only [runFailures, hstep, List.length_cons, if_true]
        rw [hcount]
        omega
      · simp only [runFailures, hstep, List.length_cons]
        rw [hmod]
        omega
    · have hstep : pingFailure t o =
          ({ t with consecutiveFailures := t.consecutiveFailures + 1,
                    health := .unhealthy }, false) := by
        unfold pingFailure
        rw [if_neg hc]
      unfold unhealthyThreshold at hc
      obtain ⟨hcount, hmod⟩ := ih
        { t with consecutiveFailures := t.consecutiveFailures + 1,
                 health := .unhealthy }
        (by show t.consecutiveFailures + 1 < unhealthyThreshold
            unfold unhealthyThreshold
            omega)
      have hproj : ({ t with consecutiveFailures := t.consecutiveFailures + 1, health := HealthState.unhealthy } : HealthTracking).consecutiveFailures = t.consecutiveFailures + 1 := rfl
      rw [hproj] at hcount hmod
      refine ⟨?_, ?_⟩
      · simp only [runFailures, hstep, List.length_cons, Bool.false_eq_true,
          if_false]
        rw [hcount]
        omega
      · simp only [runFailures, hstep, List.length_cons]
        rw [hmod]
        omega

/--
C7: a ping failure invokes `client.reconnect()` exactly when the
consecutive-failure count reaches the unhealthy threshold of 3; at that
crossing the counter is reset to zero and health is set to `unknown`;
the settlement is independent of the reconnect outcome (a rejected
reconnect is caught and never propagates); and over a run of consecutive
failures starting from a zero counter, `reconnect()` is invoked exactly
once per three failures.
-/
theorem health_reconnect_threshold :
    (∀ (t : HealthTracking) (o : Except String Unit),
      ((pingFailure t o).2 = true ↔
        t.consecutiveFailures + 1 ≥ unhealthyThreshold) ∧
      ((pingFailure t o).2 = true →
        (pingFailure t o).1.consecutiveFailures = 0 ∧
        (pingFailure t o).1.health = .unknown) ∧
      (∀ o₂, pingFailure t o = pingFailure t o₂)) ∧
    (∀ (outcomes : List (Except String Unit)) (t : HealthTracking),
      t.consecutiveFailures = 0 →
      (runFailures t outcomes).2 = outcomes.length / 3 ∧
      (runFailures t outcomes).1.consecutiveFailures =
        outcomes.length % 3) := by
  constructor
  · intro t o
    refine ⟨?_, ?_, ?_⟩
    · unfold pingFailure
      by_cases hc : t.consecutiveFailures + 1 ≥ unhealthyThreshold
      · simp [hc]
      · simp [hc]
    · intro hfired
      unfold pingFailure at hfired ⊢
      by_cases hc : t.consecutiveFailures + 1 ≥ unhealthyThreshold
      · rw [if_pos hc]
        exact ⟨rfl, rfl⟩
      · rw [if_neg hc] at hfired
        cases hfired
    · intro o₂
      unfold pingFailure
      rfl
  · intro outcomes t h0
    have := runFailures_arith outcomes t
      (by rw [h0]; unfold unhealthyThreshold; omega)
    rw [h0] at this
    simpa using this

/-- Closed corollary of `health_reconnect_threshold`: three straight
failures from a fresh tracking record yield exactly one reconnect and a
reset counter. -/
theorem health_reconnect_threshold_witness :
    (runFailures ⟨0, .unknown, none⟩
      [.error "timeout", .error "timeout", .error "timeout"]).2 = 1 ∧
    (runFailures ⟨0, .unknown, none⟩
      [.error "timeout", .error "timeout", .error "timeout"]).1.consecutiveFailures = 0 := by
  have h := health_reconnect_threshold.2
    [.error "timeout", .error "timeout", .error "timeout"]
    ⟨0, .unknown, none⟩ rfl
  exact ⟨by rw [h.1]; decide, by rw [h.2]; decide⟩

/-! ## Upstream client epoch discipline (`src/upstream/http-client.ts`
and `src/upstream/stdio-client.ts`, `_doConnect`)

Both transports share the same `_doConnect` body.  Its asynchronous
callbacks — the `tools/list_changed` handler and `transport.onclose` —
capture `myEpoch = this._epoch` at registration time and guard every
mutation with an epoch comparison.  The client's mutable fields touched
by these callbacks are embedded below; MCP sessions and transports
themselves stay outside the model (`hasClient` stands for
`this._client !== undefined`). -/

structure ClientState where
  status : ConnectionStatus := .disconnected
  tools : List Tool := []
  closed : Bool := false
  epoch : Nat := 0
  hasClient : Bool := false
  reconnectAttempt : Nat := 0
  reconnectTimerArmed : Bool := false
  connectInFlight : Bool := false
  maxReconnectAttempts : Nat := 5
deriving DecidableEq

/-- `_scheduleReconnect`. -/
def scheduleReconnect (s : ClientState) : ClientState :=
  if s.closed then s
  else if s.reconnectTimerArmed then s
  else if s.connectInFlight then s
  else if s.reconnectAttempt ≥ s.maxReconnectAttempts then
    { s with status := .error }
  else
    { s with reconnectAttempt := s.reconnectAttempt + 1,
             reconnectTimerArmed := true }

/-- The `listChanged.tools.onChanged` callback registered by
`_doConnect`, as a function of the epoch it captured:
`if (error || !tools || this._epoch !== myEpoch) return`. -/
def onToolsListChanged (myEpoch : Nat) (error : Bool)
    (newTools : Option (List Tool)) (s : ClientState) : ClientState :=
  if error ∨ newTools.isNone ∨ s.epoch ≠ myEpoch then s
  else { s with tools := newTools.getD [] }

/-- The `transport.onclose` callback registered by `_doConnect`:
`if (this._closed || this._epoch !== myEpoch) return`. -/
def onTransportClose (myEpoch : Nat) (s : ClientState) : ClientState :=
  if s.closed ∨ s.epoch ≠ myEpoch then s
  else scheduleReconnect
    { s with hasClient := false, status := .disconnected }

/-- The synchronous prefix of `_doConnect`: clear the closed flag and
any pending reconnect timer, increment the epoch, and capture `myEpoch`
(the second component) for the callbacks registered by this
invocation. -/
def doConnectStart (s : ClientState) : ClientState × Nat :=
  ({ s with closed := false, reconnectTimerArmed := false,
            epoch := s.epoch + 1, connectInFlight := true },
   s.epoch + 1)

/--
C8: a `_doConnect` invocation increments the epoch and registers its
callbacks with the new value; a tool-list-change or transport-close
callback whose captured epoch differs from the client's current epoch
returns without mutating anything; consequently every callback
registered by one of the first K−1 `connect` invocations (its captured
epoch is at most the pre-connect epoch) is a no-op on the state produced
by a later `_doConnect` — it never mutates the client's tools or status.
-/
theorem epoch_discipline :
    (∀ s : ClientState,
      (doConnectStart s).1.epoch = s.epoch + 1 ∧
      (doConnectStart s).2 = (doConnectStart s).1.epoch) ∧
    (∀ (s : ClientState) (cbEpoch : Nat) (error : Bool)
        (newTools : Option (List Tool)),
      cbEpoch ≠ s.epoch →
      onToolsListChanged cbEpoch error newTools s = s ∧
      onTransportClose cbEpoch s = s) ∧
    (∀ (s : ClientState) (cbEpoch : Nat) (error : Bool)
        (newTools : Option (List Tool)),
      cbEpoch ≤ s.epoch →
      (onToolsListChanged cbEpoch error newTools (doConnectStart s).1).tools
          = (doConnectStart s).1.tools ∧
      (onTransportClose cbEpoch (doConnectStart s).1).status
          = (doConnectStart s).1.status) := by
  refine ⟨?_, ?_, ?_⟩
  · intro s
    exact ⟨rfl, rfl⟩
  · intro s cbEpoch error newTools hne
    constructor
    · unfold onToolsListChanged
      rw [if_pos (Or.inr (Or.inr fun h => hne h.symm))]
    · unfold onTransportClose
      rw [if_pos (Or.inr fun h => hne h.symm)]
  · intro s cbEpoch error newTools hle
    have hne : cbEpoch ≠ (doConnectStart s).1.epoch := by
      show cbEpoch ≠ s.epoch + 1
      omega
    constructor
    · rw [(by
        unfold onToolsListChanged
        rw [if_pos (Or.inr (Or.inr fun h => hne h.symm))] :
        onToolsListChanged cbEpoch error newTools (doConnectStart s).1 =
          (doConnectStart s).1)]
    · rw [(by
        unfold onTransportClose
        rw [if_pos (Or.inr fun h => hne h.symm)] :
        onTransportClose cbEpoch (doConnectStart s).1 =
          (doConnectStart s).1)]

/-- Closed corollary of `epoch_discipline`: after a second connect, a
callback captured at epoch 1 leaves a concrete client state untouched. -/
theorem epoch_discipline_witness :
    onToolsListChanged 1 false (some [⟨"t", none, ""⟩])
        (doConnectStart ⟨.connected, [], false, 1, true, 0, false, false, 5⟩).1
      = (doConnectStart ⟨.connected, [], false, 1, true, 0, false, false, 5⟩).1 ∧
    onTransportClose 1
        (doConnectStart ⟨.connected, [], false, 1, true, 0, false, false, 5⟩).1
      = (doConnectStart ⟨.connected, [], false, 1, true, 0, false, false, 5⟩).1 :=
  (epoch_discipline.2.1
    (doConnectStart ⟨.connected, [], false, 1, true, 0, false, false, 5⟩).1
    1 false (some [⟨"t", none, ""⟩]) (by decide))

/-! ## Tool search service (`src/search/tool-search-service.ts`)

The MiniSearch index and the RegExp engine are external libraries; they
enter the model as a `SearchOracle` (`regexOf` models `parseRegex`,
`indexSearch` models `this.index.search` returning scored hits, best
first).  Everything else — the rebuild-on-change loop, summary/detail
dispatch, candidate intersection, cross-query dedup, paging, policy
placeholders, grouping, the enabled-set replacement and the
visible-tools view — is translated from the source.  Opaque payloads
(tool input schemas, the long meta-tool descriptions) are carried as
uninterpreted strings. -/

structure IndexedTool where
  id : String
  name : String
  originalName : String
  description : String
  source : String
  category : String
deriving DecidableEq

structure SearchQuery where
  tool : Option String := none
  provider : Option String := none
  category : Option String := none
  expandTools : Option Bool := none
  limit : Option Int := none
  offset : Option Int := none
deriving DecidableEq

structure SearchToolsParams where
  queries : List SearchQuery
deriving DecidableEq

structure SearchToolResult where
  toolName : String
  source : String
  description : String
  inputSchema : String
  disabled : Bool := false
deriving DecidableEq

structure ProviderResult where
  name : String
  category : Option String := none
  toolCount : Int
  tools : List SearchToolResult
deriving DecidableEq

structure QueryResult where
  providers : List ProviderResult
  total : Int
  count : Int
  remaining : Int
  offset : Int
  limit : Int
deriving DecidableEq

structure SearchOracle where
  regexOf : String → Option (String → Bool)
  indexSearch : String → List (String × ℚ)

structure ToolSearchService where
  registry : ToolRegistry
  policyEngine : Option PolicyEngine := none
  indexedTools : List (String × IndexedTool) := []
  enabledTools : List String := []

/-- The fixed `search_tools` definition (description and input schema
are opaque payloads never inspected by the modelled code). -/
def searchToolDefinition : Tool :=
  ⟨"search_tools",
   some "Search for available tools across all connected MCP servers.",
   "search-tools-input-schema"⟩

/-- The fixed `run_tool` definition. -/
def runToolDefinition : Tool :=
  ⟨"run_tool",
   some "Execute any tool from any connected MCP server by its full namespaced name.",
   "run-tool-input-schema"⟩

/-- The indexing loop of `rebuildIndex`: one `IndexedTool` document per
registered tool, keyed by the namespaced name. -/
def buildDocs (r : ToolRegistry) : List (String × IndexedTool) :=
  r.tools.foldl
    (fun acc p =>
      jsSet acc p.2.tool.name
        { id := p.2.tool.name
          name := p.2.tool.name
          originalName :=
            match parseNamespacedName p.2.tool.name with
            | some q => q.2
            | none => p.2.tool.name
          description := p.2.tool.description.getD ""
          source := p.2.source
          category := (r.getCategoryForSource p.2.source).getD "" })
    []

/-- `rebuildIndex`: rebuild the documents, prune enabled names that no
longer exist, and report (second component) whether the visible-tools
notification fired — i.e. whether at least one name was pruned. -/
def ToolSearchService.rebuildIndex (svc : ToolSearchService) :
    ToolSearchService × Bool :=
  let docs := buildDocs svc.registry
  let pruned := svc.enabledTools.any (fun n => (alookup n docs).isNone)
  ({ svc with
      indexedTools := docs
      enabledTools := svc.enabledTools.filter (fun n => (alookup n docs).isSome) },
   pruned)

/-- `getVisibleTools`: the two synthetic definitions followed by the
enabled tools still present in the registry. -/
def ToolSearchService.getVisibleTools (svc : ToolSearchService) : List Tool :=
  [searchToolDefinition, runToolDefinition] ++
    svc.enabledTools.foldl
      (fun acc name =>
        match svc.registry.getTool name with
        | some registered => acc ++ [registered.tool]
        | none => acc)
      []

/-- `matchesPrefixOrRegex`: regex test when the pattern parses as one,
else case-insensitive prefix match. -/
def matchesPrefixOrRegex (ora : SearchOracle) (value pattern : String) :
    Bool :=
  match ora.regexOf pattern with
  | some test => test value
  | none => value.toLower.startsWith pattern.toLower

/-- A filter is present when the field is defined and non-empty. -/
def hasFilter : Option String → Bool
  | some s => decide (s ≠ "")
  | none => false

/-- The `sourceToolCounts` map computed at the top of `search`. -/
def sourceToolCounts (svc : ToolSearchService) : List (String × Nat) :=
  svc.indexedTools.foldl
    (fun acc p => jsSet acc p.2.source ((alookup p.2.source acc).getD 0 + 1))
    []

/-- The `...(category ? { category } : {})` spread: a missing or empty
category string is omitted. -/
def categoryField (c : Option String) : Option String :=
  match c with
  | some c => if c = "" then none else some c
  | none => none

/-- One provider summary entry of the summary branch. -/
def mkProviderSummary (svc : ToolSearchService) (source : String) :
    ProviderResult :=
  { name := source
    category := categoryField (svc.registry.getCategoryForSource source)
    toolCount := ((alookup source (sourceToolCounts svc)).getD 0 : Nat)
    tools := [] }

/-- The summary-mode source gathering loop. -/
def summaryMatchedSources (ora : SearchOracle) (svc : ToolSearchService)
    (q : SearchQuery) : List String :=
  svc.indexedTools.foldl
    (fun acc p =>
      if hasFilter q.provider ∧
          ¬ matchesPrefixOrRegex ora p.2.source (q.provider.getD "") then acc
      else if hasFilter q.category ∧
          (p.2.category = "" ∨
            ¬ matchesPrefixOrRegex ora p.2.category (q.category.getD "")) then
        acc
      else jsAdd acc p.2.source)
    []

/-- The tool-filter candidate set: regex test over the four stored
fields, or a text query kept above `0.3 ×` the top score. -/
def toolFilterCandidates (ora : SearchOracle) (svc : ToolSearchService)
    (pattern : String) : List String :=
  match ora.regexOf pattern with
  | some rx =>
    svc.indexedTools.foldl
      (fun acc p =>
        if rx p.2.name || rx p.2.originalName || rx p.2.description ||
            rx p.2.source then jsAdd acc p.1
        else acc)
      []
  | none =>
    match ora.indexSearch pattern with
    | [] => []
    | top :: rest =>
      (top :: rest).foldl
        (fun acc r => if r.2 ≥ top.2 * (3 / 10 : ℚ) then jsAdd acc r.1 else acc)
        []

def providerFilterCandidates (ora : SearchOracle) (svc : ToolSearchService)
    (pattern : String) : List String :=
  svc.indexedTools.foldl
    (fun acc p =>
      if matchesPrefixOrRegex ora p.2.source pattern then jsAdd acc p.1
      else acc)
    []

def categoryFilterCandidates (ora : SearchOracle) (svc : ToolSearchService)
    (pattern : String) : List String :=
  svc.indexedTools.foldl
    (fun acc p =>
      if p.2.category ≠ "" ∧ matchesPrefixOrRegex ora p.2.category pattern
      then jsAdd acc p.1
      else acc)
    []

/-- Intersect the present filter sets, iterating the smallest (a stable
sort by size, as `Array.prototype.sort` is). -/
def intersectCandidates (filterSets : List (List String)) : List String :=
  match filterSets with
  | [] => []
  | [s] => s
  | _ =>
    let sorted := filterSets.mergeSort (fun a b => a.length ≤ b.length)
    match sorted with
    | [] => []
    | s0 :: _ =>
      s0.foldl
        (fun acc name =>
          if sorted.all (fun s => s.contains name) then jsAdd acc name
          else acc)
        []

/-- The policy pre-pass over the page: names whose resolved policy is
`never`. -/
def disabledOnPage (pe : Option PolicyEngine) (paged : List String) :
    List String :=
  match pe with
  | some engine =>
    paged.foldl
      (fun acc name =>
        match parseNamespacedName name with
        | some st =>
          if engine.resolvePolicy st.1 st.2 = .never then jsAdd acc name
          else acc
        | none => acc)
      []
  | none => []

/-- Group the page by source (`providerToolsMap` + `providerOrder`),
emitting a placeholder for disabled tools. -/
def groupPage (svc : ToolSearchService) (paged disabledSet : List String) :
    List (String × List SearchToolResult) :=
  paged.foldl
    (fun acc name =>
      match alookup name svc.indexedTools with
      | none => acc
      | some doc =>
        match svc.registry.getTool name with
        | none => acc
        | some registered =>
          let entry : SearchToolResult :=
            if disabledSet.contains name then
              { toolName := name, source := doc.source, description := "",
                inputSchema := "", disabled := true }
            else
              { toolName := name, source := doc.source,
                description := doc.description,
                inputSchema := registered.tool.inputSchema, disabled := false }
          jsSet acc doc.source ((alookup doc.source acc).getD [] ++ [entry]))
    []

/-- One iteration of the query loop of `search`: consumes the
cross-query `seenTools` set and the `allEnabled` accumulator, produces
the result slot and the updated accumulators. -/
def queryStep (ora : SearchOracle) (svc : ToolSearchService)
    (seen allEnabled : List String) (q : SearchQuery) :
    QueryResult × List String × List String :=
  if ¬ hasFilter q.tool ∧ ¬ hasFilter q.provider ∧ ¬ hasFilter q.category then
    ({ providers := [], total := 0, count := 0, remaining := 0,
       offset := q.offset.getD 0, limit := q.limit.getD 10 },
     seen, allEnabled)
  else
    let limit : Int := min (max 1 (q.limit.getD 10)) 50
    let offset : Int := max 0 (q.offset.getD 0)
    if ¬ hasFilter q.tool ∧ ¬ (q.expandTools = some true) then
      -- summary mode: provider summaries only; nothing seen, nothing enabled
      let matched := summaryMatchedSources ora svc q
      ({ providers := matched.map (mkProviderSummary svc)
         total := matched.foldl
           (fun sum s => sum + ((alookup s (sourceToolCounts svc)).getD 0 : Nat))
           0
         count := 0, remaining := 0, offset := offset, limit := limit },
       seen, allEnabled)
    else
      let filterSets :=
        (if hasFilter q.tool then
          [toolFilterCandidates ora svc (q.tool.getD "")] else []) ++
        (if hasFilter q.provider then
          [providerFilterCandidates ora svc (q.provider.getD "")] else []) ++
        (if hasFilter q.category then
          [categoryFilterCandidates ora svc (q.category.getD "")] else [])
      let candidates := intersectCandidates filterSets
      let deduped := candidates.filter (fun n => ¬ seen.contains n)
      let total : Int := (deduped.length : Nat)
      let paged := (deduped.drop offset.toNat).take limit.toNat
      let disabledSet := disabledOnPage svc.policyEngine paged
      let grouped := groupPage svc paged disabledSet
      let providers := grouped.map
        (fun p =>
          { name := p.1
            category := categoryField (svc.registry.getCategoryForSource p.1)
            toolCount := ((alookup p.1 (sourceToolCounts svc)).getD 0 : Nat)
            tools := p.2 })
      let toolCount : Int :=
        providers.foldl (fun sum p => sum + (p.tools.length : Nat)) 0
      ({ providers := providers, total := total, count := toolCount,
         remaining := max 0 (total - offset - toolCount),
         offset := offset, limit := limit },
       deduped.foldl jsAdd seen,
       allEnabled ++ paged.filter
         (fun name => ¬ disabledSet.contains name ∧
           (alookup name svc.indexedTools).isSome ∧
           (svc.registry.getTool name).isSome))

/-- `setsEqual` from the source, on duplicate-free lists. -/
def setsEqualB (a b : List String) : Bool :=
  a.length == b.length && a.all (fun x => b.contains x)

/-- `search`: run every query through `queryStep`, cap the enabled union
at 50, replace the enabled set, and report (third component) whether the
visible-tools notification fired. -/
def ToolSearchService.search (ora : SearchOracle) (svc : ToolSearchService)
    (params : SearchToolsParams) :
    ToolSearchService × List QueryResult × Bool :=
  if params.queries.isEmpty then (svc, [], false)
  else
    let final := params.queries.foldl
      (fun (acc : List QueryResult × List String × List String) q =>
        let r := queryStep ora svc acc.2.1 acc.2.2 q
        (acc.1 ++ [r.1], r.2.1, r.2.2))
      ([], [], [])
    let cappedEnabled := final.2.2.take 50
    let newEnabled := cappedEnabled.foldl jsAdd []
    let changed := ¬ setsEqualB svc.enabledTools newEnabled
    ({ svc with enabledTools := newEnabled }, final.1, decide changed)

/-! Lemmas about the rebuilt index and the visible-tools view. -/

theorem alookup_foldl_jsSet_isSome {β γ : Type} (key : β → String)
    (val : β → γ) (l : List β) (acc : List (String × γ)) (n : String) :
    (alookup n (l.foldl (fun a p => jsSet a (key p) (val p)) acc)).isSome ↔
      (∃ p ∈ l, key p = n) ∨ (alookup n acc).isSome := by
  induction l generalizing acc with
  | nil => simp
  | cons p rest ih =>
    show (alookup n (rest.foldl _ (jsSet acc (key p) (val p)))).isSome ↔ _
    rw [ih]
    rw [alookup_jsSet]
    by_cases hn : n = key p
    · simp [hn]
    · have hn' : ¬ key p = n := fun h => hn h.symm
      simp only [hn, if_false, List.mem_cons]
      constructor
      · rintro (⟨x, hx, hkey⟩ | hacc)
        · exact Or.inl ⟨x, Or.inr hx, hkey⟩
        · exact Or.inr hacc
      · rintro (⟨x, hx, hkey⟩ | hacc)
        · rcases hx with rfl | hx
          · exact absurd hkey hn'
          · exact Or.inl ⟨x, hx, hkey⟩
        · exact Or.inr hacc

theorem alookup_buildDocs_isSome (r : ToolRegistry) (n : String) :
    (alookup n (buildDocs r)).isSome ↔ ∃ p ∈ r.tools, p.2.tool.name = n := by
  have h := alookup_foldl_jsSet_isSome
    (fun (p : String × RegisteredTool) => p.2.tool.name)
    (fun p =>
      ({ id := p.2.tool.name
         name := p.2.tool.name
         originalName :=
           match parseNamespacedName p.2.tool.name with
           | some q => q.2
           | none => p.2.tool.name
         description := p.2.tool.description.getD ""
         source := p.2.source
         category := (r.getCategoryForSource p.2.source).getD "" } : IndexedTool))
    r.tools [] n
  rw [show buildDocs r = r.tools.foldl _ [] from rfl]
  rw [h]
  simp [alookup]

theorem visible_fold_mem (r : ToolRegistry) (names : List String)
    (acc : List Tool) (t : Tool)
    (h : t ∈ names.foldl
      (fun acc name =>
        match r.getTool name with
        | some registered => acc ++ [registered.tool]
        | none => acc) acc) :
    t ∈ acc ∨ ∃ n rt, n ∈ names ∧ r.getTool n = some rt ∧ t = rt.tool := by
  induction names generalizing acc with
  | nil => exact Or.inl h
  | cons name rest ih =>
    have h' := ih _ h
    rcases h' with hmem | ⟨n, rt, hn, hget, ht⟩
    · cases hget : r.getTool name with
      | some registered =>
        simp only [hget] at hmem
        rcases List.mem_append.mp hmem with hacc | hsing
        · exact Or.inl hacc
        · rcases List.mem_singleton.mp hsing with rfl
          exact Or.inr ⟨name, registered, List.mem_cons_self _ _, hget, rfl⟩
      | none =>
        simp only [hget] at hmem
        exact Or.inl hmem
    · exact Or.inr ⟨n, rt, List.mem_cons_of_mem _ hn, hget, ht⟩

/--
C10: `rebuildIndex` removes from the enabled set exactly the names no
longer present in the rebuilt index (equivalently, no longer carried by
any registry entry) and fires the visible-tools notification iff at
least one name was removed; and `getVisibleTools` always returns the
fixed `search_tools` and `run_tool` definitions followed only by tools
currently present in the registry — never a stale tool.
-/
theorem search_index_consistency (svc : ToolSearchService) :
    ((svc.rebuildIndex).2 = true ↔
      ∃ n ∈ svc.enabledTools, ∀ p ∈ svc.registry.tools, p.2.tool.name ≠ n) ∧
    (∀ n, n ∈ (svc.rebuildIndex).1.enabledTools ↔
      n ∈ svc.enabledTools ∧ ∃ p ∈ svc.registry.tools, p.2.tool.name = n) ∧
    ((svc.getVisibleTools).take 2 =
      [searchToolDefinition, runToolDefinition]) ∧
    (∀ t ∈ svc.getVisibleTools,
      t = searchToolDefinition ∨ t = runToolDefinition ∨
      ∃ n rt, n ∈ svc.enabledTools ∧ svc.registry.getTool n = some rt ∧
        t = rt.tool) := by
  refine ⟨?_, ?_, ?_, ?_⟩
  · show (svc.enabledTools.any
      (fun n => (alookup n (buildDocs svc.registry)).isNone)) = true ↔ _
    rw [List.any_eq_true]
    constructor
    · rintro ⟨n, hn, hnone⟩
      refine ⟨n, hn, ?_⟩
      intro p hp hname
      rw [Option.isNone_iff_eq_none] at hnone
      have : (alookup n (buildDocs svc.registry)).isSome :=
        (alookup_buildDocs_isSome svc.registry n).mpr ⟨p, hp, hname⟩
      rw [hnone] at this
      cases this
    · rintro ⟨n, hn, hall⟩
      refine ⟨n, hn, ?_⟩
      rw [Option.isNone_iff_eq_none]
      cases hdoc : alookup n (buildDocs svc.registry) with
      | none => rfl
      | some d =>
        have : (alookup n (buildDocs svc.registry)).isSome := by
          rw [hdoc]; rfl
        obtain ⟨p, hp, hname⟩ :=
          (alookup_buildDocs_isSome svc.registry n).mp this
        exact absurd hname (hall p hp)
  · intro n
    show n ∈ svc.enabledTools.filter
      (fun n => (alookup n (buildDocs svc.registry)).isSome) ↔ _
    rw [List.mem_filter]
    rw [alookup_buildDocs_isSome]
  · rfl
  · intro t ht
    rcases List.mem_append.mp ht with hfixed | hrest
    · rcases List.mem_cons.mp hfixed with rfl | hfixed'
      · exact Or.inl rfl
      · rcases List.mem_singleton.mp hfixed' with rfl
        exact Or.inr (Or.inl rfl)
    · rcases visible_fold_mem svc.registry svc.enabledTools [] t hrest with
        hnil | ⟨n, rt, hn, hget, hteq⟩
      · cases hnil
      · exact Or.inr (Or.inr ⟨n, rt, hn, hget, hteq⟩)

/-- Closed corollary of `search_index_consistency`: with a stale enabled
name and an empty registry, the rebuild prunes it and fires the
notification; the visible list is exactly the two synthetic tools. -/
theorem search_index_consistency_witness :
    ((ToolSearchService.mk {} none [] ["gone"]).rebuildIndex).2 = true ∧
    (("gone" ∈
      ((ToolSearchService.mk {} none [] ["gone"]).rebuildIndex).1.enabledTools)
        ↔ False) := by
  constructor
  · exact (search_index_consistency
      (ToolSearchService.mk {} none [] ["gone"])).1.mpr
      ⟨"gone", by decide, by intro p hp; cases hp⟩
  · rw [(search_index_consistency
      (ToolSearchService.mk {} none [] ["gone"])).2.1 "gone"]
    simp [alookup]

/-! Lemmas about summary-mode queries. -/

/-- A summary-mode query: some provider/category filter present, no tool
filter, and `expand_tools` not equal to `true`. -/
def isSummaryQuery (q : SearchQuery) : Prop :=
  (hasFilter q.provider ∨ hasFilter q.category) ∧
  ¬ hasFilter q.tool ∧ ¬ (q.expandTools = some true)

instance (q : SearchQuery) : Decidable (isSummaryQuery q) := by
  unfold isSummaryQuery
  infer_instance

/-- A document (equivalently, its source) passes the summary filters. -/
def summaryDocPasses (ora : SearchOracle) (q : SearchQuery)
    (d : IndexedTool) : Prop :=
  (hasFilter q.provider →
    matchesPrefixOrRegex ora d.source (q.provider.getD "")) ∧
  (hasFilter q.category →
    d.category ≠ "" ∧ matchesPrefixOrRegex ora d.category (q.category.getD ""))

/-- `queryStep` on a summary-mode query reduces to the provider-summary
slot and leaves both accumulators untouched. -/
theorem queryStep_summary (ora : SearchOracle) (svc : ToolSearchService)
    (seen allEnabled : List String) (q : SearchQuery)
    (h : isSummaryQuery q) :
    queryStep ora svc seen allEnabled q =
      ({ providers :=
           (summaryMatchedSources ora svc q).map (mkProviderSummary svc)
         total := (summaryMatchedSources ora svc q).foldl
           (fun sum s => sum + ((alookup s (sourceToolCounts svc)).getD 0 : Nat))
           0
         count := 0, remaining := 0
         offset := max 0 (q.offset.getD 0)
         limit := min (max 1 (q.limit.getD 10)) 50 },
       seen, allEnabled) := by
  obtain ⟨hfilters, htool, hexp⟩ := h
  have hneg : ¬ (¬ hasFilter q.tool ∧ ¬ hasFilter q.provider ∧
      ¬ hasFilter q.category) := by
    rintro ⟨_, hp, hc⟩
    rcases hfilters with hf | hf
    · exact hp hf
    · exact hc hf
  have hpos : ¬ hasFilter q.tool ∧ ¬ (q.expandTools = some true) :=
    ⟨htool, hexp⟩
  unfold queryStep
  rw [if_neg hneg, if_pos hpos]

theorem jsAdd_nodup (s : List String) (x : String) (h : s.Nodup) :
    (jsAdd s x).Nodup := by
  unfold jsAdd
  by_cases hx : x ∈ s
  · simpa [hx] using h
  · simp [hx, List.nodup_append, h, List.disjoint_singleton]

theorem summaryMatchedSources_fold (ora : SearchOracle) (q : SearchQuery)
    (l : List (String × IndexedTool)) (acc : List String) (s : String) :
    (s ∈ l.foldl
      (fun acc p =>
        if hasFilter q.provider ∧
            ¬ matchesPrefixOrRegex ora p.2.source (q.provider.getD "") then acc
        else if hasFilter q.category ∧
            (p.2.category = "" ∨
              ¬ matchesPrefixOrRegex ora p.2.category (q.category.getD "")) then
          acc
        else jsAdd acc p.2.source) acc) ↔
      s ∈ acc ∨ ∃ p ∈ l, p.2.source = s ∧ summaryDocPasses ora q p.2 := by
  induction l generalizing acc with
  | nil => simp
  | cons p rest ih =>
    rw [List.foldl_cons, ih]
    by_cases hA : hasFilter q.provider ∧
        ¬ matchesPrefixOrRegex ora p.2.source (q.provider.getD "")
    · rw [if_pos hA]
      have hnp : ¬ summaryDocPasses ora q p.2 := fun hp => hA.2 (hp.1 hA.1)
      rw [List.exists_mem_cons_iff]
      constructor
      · rintro (hacc | hex)
        · exact Or.inl hacc
        · exact Or.inr (Or.inr hex)
      · rintro (hacc | ⟨⟨_, hpass⟩ | hex⟩)
        · exact Or.inl hacc
        · exact absurd hpass hnp
        · exact Or.inr hex
    · rw [if_neg hA]
      by_cases hB : hasFilter q.category ∧
          (p.2.category = "" ∨
            ¬ matchesPrefixOrRegex ora p.2.category (q.category.getD ""))
      · rw [if_pos hB]
        have hnp : ¬ summaryDocPasses ora q p.2 := by
          rintro ⟨_, hcat⟩
          obtain ⟨hne, hm⟩ := hcat hB.1
          rcases hB.2 with hemp | hnm
          · exact hne hemp
          · exact hnm hm
        rw [List.exists_mem_cons_iff]
        constructor
        · rintro (hacc | hex)
          · exact Or.inl hacc
          · exact Or.inr (Or.inr hex)
        · rintro (hacc | ⟨⟨_, hpass⟩ | hex⟩)
          · exact Or.inl hacc
          · exact absurd hpass hnp
          · exact Or.inr hex
      · rw [if_neg hB]
        have hp : summaryDocPasses ora q p.2 := by
          constructor
          · intro hprov
            by_contra hm
            exact hA ⟨hprov, hm⟩
          · intro hcat
            constructor
            · intro hemp
              exact hB ⟨hcat, Or.inl hemp⟩
            · by_contra hm
              exact hB ⟨hcat, Or.inr hm⟩
        rw [mem_jsAdd, List.exists_mem_cons_iff]
        constructor
        · rintro ((hacc | rfl) | hex)
          · exact Or.inl hacc
          · exact Or.inr (Or.inl ⟨rfl, hp⟩)
          · exact Or.inr (Or.inr hex)
        · rintro (hacc | ⟨⟨hsrc, _⟩ | hex⟩)
          · exact Or.inl (Or.inl hacc)
          · exact Or.inl (Or.inr hsrc.symm)
          · exact Or.inr hex

theorem summaryMatchedSources_mem (ora : SearchOracle)
    (svc : ToolSearchService) (q : SearchQuery) (s : String) :
    s ∈ summaryMatchedSources ora svc q ↔
      ∃ p ∈ svc.indexedTools, p.2.source = s ∧ summaryDocPasses ora q p.2 := by
  rw [show summaryMatchedSources ora svc q = svc.indexedTools.foldl _ []
    from rfl]
  rw [summaryMatchedSources_fold]
  simp

theorem summaryMatchedSources_nodup (ora : SearchOracle)
    (svc : ToolSearchService) (q : SearchQuery) :
    (summaryMatchedSources ora svc q).Nodup := by
  have paux : ∀ (l : List (String × IndexedTool)) (acc : List String),
      acc.Nodup →
      (l.foldl
        (fun acc p =>
          if hasFilter q.provider ∧
              ¬ matchesPrefixOrRegex ora p.2.source (q.provider.getD "")
          then acc
          else if hasFilter q.category ∧
              (p.2.category = "" ∨
                ¬ matchesPrefixOrRegex ora p.2.category (q.category.getD ""))
          then acc
          else jsAdd acc p.2.source) acc).Nodup := by
    intro l
    induction l with
    | nil => intro acc h; exact h
    | cons p rest ih =>
      intro acc h
      rw [List.foldl_cons]
      apply ih
      by_cases hA : hasFilter q.provider ∧
          ¬ matchesPrefixOrRegex ora p.2.source (q.provider.getD "")
      · rwa [if_pos hA]
      · rw [if_neg hA]
        by_cases hB : hasFilter q.category ∧
            (p.2.category = "" ∨
              ¬ matchesPrefixOrRegex ora p.2.category (q.category.getD ""))
        · rwa [if_pos hB]
        · rw [if_neg hB]
          exact jsAdd_nodup _ _ h
  exact paux svc.indexedTools [] List.nodup_nil

theorem sourceToolCounts_fold (l : List (String × IndexedTool))
    (acc : List (String × Nat)) (s : String) :
    (alookup s (l.foldl
      (fun acc p =>
        jsSet acc p.2.source ((alookup p.2.source acc).getD 0 + 1)) acc)).getD 0 =
      (alookup s acc).getD 0 + (l.filter (fun p => p.2.source = s)).length := by
  induction l generalizing acc with
  | nil => simp
  | cons p rest ih =>
    rw [List.foldl_cons, ih]
    by_cases hs : p.2.source = s
    · rw [alookup_jsSet, if_pos hs.symm, hs]
      have hfilter : (List.filter (fun p => decide (p.2.source = s)) (p :: rest))
          = p :: List.filter (fun p => decide (p.2.source = s)) rest := by
        simp [List.filter, hs]
      rw [hfilter]
      simp only [List.length_cons, Option.getD_some]
      omega
    · rw [alookup_jsSet]
      have hsne : ¬ s = p.2.source := fun h => hs h.symm
      rw [if_neg hsne]
      have hfilter : (List.filter (fun p => decide (p.2.source = s)) (p :: rest))
          = List.filter (fun p => decide (p.2.source = s)) rest := by
        simp [List.filter, hs]
      rw [hfilter]

theorem sourceToolCounts_eq (svc : ToolSearchService) (s : String) :
    (alookup s (sourceToolCounts svc)).getD 0 =
      (svc.indexedTools.filter (fun p => p.2.source = s)).length := by
  rw [show sourceToolCounts svc = svc.indexedTools.foldl _ [] from rfl,
    sourceToolCounts_fold]
  simp [alookup]

/-- The accumulator component of the search loop. -/
def searchAccumStep (ora : SearchOracle) (svc : ToolSearchService)
    (acc : List String × List String) (q : SearchQuery) :
    List String × List String :=
  (queryStep ora svc acc.1 acc.2 q).2

theorem search_fold_accum (ora : SearchOracle) (svc : ToolSearchService)
    (qs : List SearchQuery) (rs0 : List QueryResult)
    (seen0 en0 : List String) :
    (qs.foldl
      (fun (acc : List QueryResult × List String × List String) q =>
        let r := queryStep ora svc acc.2.1 acc.2.2 q
        (acc.1 ++ [r.1], r.2.1, r.2.2))
      (rs0, seen0, en0)).2 =
    qs.foldl (searchAccumStep ora svc) (seen0, en0) := by
  induction qs generalizing rs0 seen0 en0 with
  | nil => rfl
  | cons q rest ih =>
    rw [List.foldl_cons, List.foldl_cons]
    exact ih _ _ _

theorem accum_fold_drop_summary (ora : SearchOracle)
    (svc : ToolSearchService) (qs : List SearchQuery)
    (seen en : List String) :
    qs.foldl (searchAccumStep ora svc) (seen, en) =
      (qs.filter (fun q => ! decide (isSummaryQuery q))).foldl
        (searchAccumStep ora svc) (seen, en) := by
  induction qs generalizing seen en with
  | nil => rfl
  | cons q rest ih =>
    by_cases hq : isSummaryQuery q
    · have hkeep : (List.filter (fun q => ! decide (isSummaryQuery q))
          (q :: rest)) =
          List.filter (fun q => ! decide (isSummaryQuery q)) rest := by
        simp [List.filter, hq]
      rw [List.foldl_cons, hkeep]
      have hstep : searchAccumStep ora svc (seen, en) q = (seen, en) := by
        unfold searchAccumStep
        rw [queryStep_summary ora svc seen en q hq]
      rw [hstep, ih]
    · have hkeep : (List.filter (fun q => ! decide (isSummaryQuery q))
          (q :: rest)) =
          q :: List.filter (fun q => ! decide (isSummaryQuery q)) rest := by
        simp [List.filter, hq]
      rw [List.foldl_cons, hkeep, List.foldl_cons]
      exact ih _ _

/--
C6: for every search query in summary mode (a provider and/or category
filter, no tool filter, `expand_tools ≠ true`), the result slot carries
one provider summary per source passing the filters — each with the
source's full tool count and an empty tool list — and the query marks no
tool as seen and contributes nothing to the enabled set: the enabled set
computed after all queries is the one computed from the non-summary
queries alone.
-/
theorem summary_mode_frame :
    (∀ (ora : SearchOracle) (svc : ToolSearchService)
        (seen allEnabled : List String) (q : SearchQuery),
      isSummaryQuery q →
      (queryStep ora svc seen allEnabled q).2.1 = seen ∧
      (queryStep ora svc seen allEnabled q).2.2 = allEnabled ∧
      (queryStep ora svc seen allEnabled q).1.count = 0 ∧
      (queryStep ora svc seen allEnabled q).1.remaining = 0 ∧
      (∀ p ∈ (queryStep ora svc seen allEnabled q).1.providers,
        p.tools = [] ∧
        p.toolCount = ((svc.indexedTools.filter
          (fun d => d.2.source = p.name)).length : Nat) ∧
        ∃ d ∈ svc.indexedTools, d.2.source = p.name ∧
          summaryDocPasses ora q d.2) ∧
      (∀ s, (∃ d ∈ svc.indexedTools, d.2.source = s ∧
          summaryDocPasses ora q d.2) →
        ∃ p ∈ (queryStep ora svc seen allEnabled q).1.providers,
          p.name = s) ∧
      ((queryStep ora svc seen allEnabled q).1.providers.map
        (fun p => p.name)).Nodup) ∧
    (∀ (ora : SearchOracle) (svc : ToolSearchService)
        (params : SearchToolsParams),
      params.queries.isEmpty = false →
      (svc.search ora params).1.enabledTools =
        ((((params.queries.filter
            (fun q => ! decide (isSummaryQuery q))).foldl
          (searchAccumStep ora svc) ([], [])).2).take 50).foldl jsAdd []) := by
  constructor
  · intro ora svc seen allEnabled q hq
    rw [queryStep_summary ora svc seen allEnabled q hq]
    refine ⟨rfl, rfl, rfl, rfl, ?_, ?_, ?_⟩
    · intro p hp
      rcases List.mem_map.mp hp with ⟨s, hs, rfl⟩
      refine ⟨rfl, ?_, ?_⟩
      · show ((alookup s (sourceToolCounts svc)).getD 0 : Int) = _
        rw [sourceToolCounts_eq]
        rfl
      · exact (summaryMatchedSources_mem ora svc q s).mp hs
    · intro s hex
      exact ⟨mkProviderSummary svc s,
        List.mem_map.mpr ⟨s, (summaryMatchedSources_mem ora svc q s).mpr hex,
          rfl⟩, rfl⟩
    · have hmapmap : ((summaryMatchedSources ora svc q).map
          (mkProviderSummary svc)).map (fun p => p.name) =
          summaryMatchedSources ora svc q := by
        rw [List.map_map]
        have hcomp : ((fun p : ProviderResult => p.name) ∘
            mkProviderSummary svc) = id := rfl
        rw [hcomp, List.map_id]
      rw [hmapmap]
      exact summaryMatchedSources_nodup ora svc q
  · intro ora svc params hne
    unfold ToolSearchService.search
    rw [if_neg (by rw [hne]; exact Bool.false_ne_true)]
    show ((params.queries.foldl _ ([], [], [])).2.2.take 50).foldl jsAdd [] = _
    rw [search_fold_accum, accum_fold_drop_summary]

/-- Closed corollary of `summary_mode_frame` at a concrete S3-style
state: a provider-only query returns a summary slot and neither marks
seen tools nor enables anything. -/
theorem summary_mode_frame_witness :
    (queryStep ⟨fun _ => none, fun _ => []⟩
      (ToolSearchService.mk {} none
        [("linear__create_issue",
          ⟨"linear__create_issue", "linear__create_issue", "create_issue",
           "", "linear", ""⟩)] [])
      [] [] { provider := some "linear" }).2.1 = [] ∧
    (queryStep ⟨fun _ => none, fun _ => []⟩
      (ToolSearchService.mk {} none
        [("linear__create_issue",
          ⟨"linear__create_issue", "linear__create_issue", "create_issue",
           "", "linear", ""⟩)] [])
      [] [] { provider := some "linear" }).2.2 = [] ∧
    (queryStep ⟨fun _ => none, fun _ => []⟩
      (ToolSearchService.mk {} none
        [("linear__create_issue",
          ⟨"linear__create_issue", "linear__create_issue", "create_issue",
           "", "linear", ""⟩)] [])
      [] [] { provider := some "linear" }).1.count = 0 := by
  have h := summary_mode_frame.1 ⟨fun _ => none, fun _ => []⟩
    (ToolSearchService.mk {} none
      [("linear__create_issue",
        ⟨"linear__create_issue", "linear__create_issue", "create_issue",
         "", "linear", ""⟩)] [])
    [] [] { provider := some "linear" } (by decide)
  exact ⟨h.1, h.2.1, h.2.2.1⟩

end Bridge
